import Mathlib

/-!
Verification of the `bitshifter/objectpool` slab/object-pool allocator
(`src/object_pool.hpp`, `src/object_pool.inl`).

The C++ code is shallowly embedded: `detail::ObjectPoolBlock<T>` becomes
`Block` (the index table `indices_begin()` is a `List Nat`, the payload
addresses become slot indices, object construction itself carries no
information relevant to the verified claims), `FixedObjectPool<T>` becomes
`FixedPool`, and `DynamicObjectPool<T>` becomes `DynPool` whose `BlockInfo`
records mirror the C++ `BlockInfo` struct (`num_free_`, `offset_`, `block_`).
Pointers returned by the pools are modelled as `(ident, slot)` pairs where
`ident` models the block's payload address `offset_` (unique per created
block) and `slot` the offset `ptr - memory_begin()` within the block.
The success of the underlying `aligned_malloc` in `Block::create` is an
external nondeterministic event and is passed to `DynPool.newObject` as an
oracle `Bool`.
-/

namespace ObjectPool

/-! ### List helper lemmas (getD / set / append / drop) -/

theorem getD_set_self {α : Type} (l : List α) (i : Nat) (a : α) (d : α)
    (h : i < l.length) : (l.set i a).getD i d = a := by
  induction l generalizing i with
  | nil => simp at h
  | cons x xs ih =>
    cases i with
    | zero => rfl
    | succ n =>
      simp only [List.set, List.getD, List.getElem?_cons_succ]
      exact ih n (by simpa using h)

theorem getD_set_ne {α : Type} (l : List α) (i j : Nat) (a : α) (d : α)
    (h : i ≠ j) : (l.set i a).getD j d = l.getD j d := by
  induction l generalizing i j with
  | nil => simp [List.set]
  | cons x xs ih =>
    cases i with
    | zero =>
      cases j with
      | zero => exact absurd rfl h
      | succ m => rfl
    | succ n =>
      cases j with
      | zero => rfl
      | succ m =>
        simp only [List.set, List.getD, List.getElem?_cons_succ]
        exact ih n m (fun he => h (by rw [he]))

theorem set_getD_self {α : Type} (l : List α) (i : Nat) (d : α)
    (h : i < l.length) : l.set i (l.getD i d) = l := by
  induction l generalizing i with
  | nil => rfl
  | cons x xs ih =>
    cases i with
    | zero => rfl
    | succ n =>
      simp only [List.getD_cons_succ, List.set]
      rw [ih n (by simpa using h)]

theorem getD_append_left {α : Type} (l r : List α) (j : Nat) (d : α)
    (h : j < l.length) : (l ++ r).getD j d = l.getD j d := by
  induction l generalizing j with
  | nil => simp at h
  | cons x xs ih =>
    cases j with
    | zero => rfl
    | succ n =>
      simp only [List.cons_append, List.getD, List.getElem?_cons_succ]
      exact ih n (by simpa using h)

theorem getD_append_right {α : Type} (l r : List α) (t : Nat) (d : α) :
    (l ++ r).getD (l.length + t) d = r.getD t d := by
  induction l with
  | nil => simp
  | cons x xs ih =>
    simp only [List.cons_append, List.length_cons]
    have : xs.length + 1 + t = (xs.length + t) + 1 := by omega
    rw [this]
    exact ih

theorem set_append_right {α : Type} (l r : List α) (t : Nat) (a : α) :
    (l ++ r).set (l.length + t) a = l ++ r.set t a := by
  induction l with
  | nil => simp
  | cons x xs ih =>
    simp only [List.cons_append, List.length_cons]
    have : xs.length + 1 + t = (xs.length + t) + 1 := by omega
    rw [this]
    simp only [List.set]
    rw [ih]

theorem getD_drop {α : Type} (l : List α) (c k : Nat) (d : α) :
    (l.drop c).getD k d = l.getD (c + k) d := by
  induction l generalizing c with
  | nil => simp
  | cons x xs ih =>
    cases c with
    | zero => simp
    | succ n =>
      simp only [List.drop]
      rw [ih n]
      have : n + 1 + k = (n + k) + 1 := by omega
      rw [this]
      rfl

theorem drop_eq_getD_cons {α : Type} (l : List α) (k : Nat) (d : α)
    (h : k < l.length) : l.drop k = l.getD k d :: l.drop (k + 1) := by
  induction l generalizing k with
  | nil => simp at h
  | cons x xs ih =>
    cases k with
    | zero => rfl
    | succ n =>
      simp only [List.drop, List.getD, List.getElem?_cons_succ]
      exact ih n (by simpa using h)

theorem take_succ_getD {α : Type} (l : List α) (k : Nat) (d : α)
    (h : k < l.length) : l.take (k + 1) = l.take k ++ [l.getD k d] := by
  induction l generalizing k with
  | nil => simp at h
  | cons x xs ih =>
    cases k with
    | zero => rfl
    | succ n =>
      simp only [List.take, List.getD, List.getElem?_cons_succ, List.cons_append]
      rw [ih n (by simpa using h)]
      rfl

theorem mem_of_mem_set {α : Type} (l : List α) (i : Nat) (a x : α)
    (h : x ∈ l.set i a) : x ∈ l ∨ x = a := by
  induction l generalizing i with
  | nil => simp [List.set] at h
  | cons y ys ih =>
    cases i with
    | zero =>
      rcases List.mem_cons.mp h with h1 | h1
      · right; exact h1
      · left; exact List.mem_cons_of_mem _ h1
    | succ n =>
      rcases List.mem_cons.mp h with h1 | h1
      · left; rw [h1]; exact List.mem_cons_self _ _
      · rcases ih n h1 with h2 | h2
        · left; exact List.mem_cons_of_mem _ h2
        · right; exact h2

theorem getD_mem {α : Type} (l : List α) (i : Nat) (d : α)
    (h : i < l.length) : l.getD i d ∈ l := by
  induction l generalizing i with
  | nil => simp at h
  | cons x xs ih =>
    cases i with
    | zero => exact List.mem_cons_self _ _
    | succ n =>
      simp only [List.getD, List.getElem?_cons_succ]
      exact List.mem_cons_of_mem _ (ih n (by simpa using h))

theorem map_set_comm {α β : Type} (l : List α) (i : Nat) (a : α) (f : α → β) :
    (l.set i a).map f = (l.map f).set i (f a) := by
  induction l generalizing i with
  | nil => rfl
  | cons x xs ih =>
    cases i with
    | zero => rfl
    | succ n => simp only [List.set, List.map]; rw [ih]

theorem sum_set_nat (l : List Nat) (i : Nat) (a : Nat) (h : i < l.length) :
    (l.set i a).sum + l.getD i 0 = l.sum + a := by
  induction l generalizing i with
  | nil => simp at h
  | cons x xs ih =>
    cases i with
    | zero => simp [List.set, List.sum_cons]; omega
    | succ n =>
      simp only [List.set, List.sum_cons, List.getD_cons_succ]
      have := ih n (by simpa using h)
      omega

theorem filter_length_split {α : Type} (l : List α) (p : α → Bool) :
    (l.filter p).length + (l.filter (fun a => !(p a))).length = l.length := by
  induction l with
  | nil => rfl
  | cons x xs ih =>
    by_cases h : p x = true
    · simp [List.filter, h]; omega
    · have h' : p x = false := by simpa using h
      simp [List.filter, h']; omega

/-! ### `ObjectPoolBlock<T>` (`src/object_pool.inl` lines 61-200)

`freeHead` models `free_head_index_`, `cap` models `entries_per_block_`,
`indices` models the table at `indices_begin()`.  A returned pointer
`memory_begin() + index` is modelled as the slot number `index`. -/

structure Block where
  freeHead : Nat
  cap : Nat
  indices : List Nat
deriving Repr, DecidableEq

/-- `ObjectPoolBlock<T>::ObjectPoolBlock` (lines 61-70): `free_head_index_ = 0`
and `indices[i] = i + 1` for all `i`. -/
def Block.create (n : Nat) : Block :=
  { freeHead := 0, cap := n, indices := (List.range n).map (fun i => i + 1) }

/-- `ObjectPoolBlock<T>::new_object` (lines 117-139).  Returns the updated
block and the slot of the constructed object (`none` |= `nullptr`). -/
def Block.newObject (b : Block) : Block × Option Nat :=
  let index := b.freeHead
  if index ≠ b.cap then
    ({ b with freeHead := b.indices.getD index 0,
              indices := b.indices.set index index }, some index)
  else
    (b, none)

/-- `ObjectPoolBlock<T>::delete_object` (lines 141-161), release semantics
(assertions elided).  `none` models the null pointer, for which the function
does nothing. -/
def Block.deleteObject (b : Block) (q : Option Nat) : Block :=
  match q with
  | none => b
  | some index =>
    { b with indices := b.indices.set index b.freeHead, freeHead := index }

/-- `ObjectPoolBlock<T>::delete_object` with its two `assert`s made explicit:
`none` is returned exactly when a debug assertion would fire (pointer out of
the block's payload range, or slot not currently allocated). -/
def Block.deleteObjectChecked (b : Block) (q : Option Nat) : Option Block :=
  match q with
  | none => some b
  | some index =>
    if index < b.cap then
      if b.indices.getD index 0 = index then
        some { b with indices := b.indices.set index b.freeHead, freeHead := index }
      else none
    else none

/-- `ObjectPoolBlock<T>::delete_all` (lines 178-189). -/
def Block.deleteAll (b : Block) : Block :=
  { b with freeHead := 0, indices := (List.range b.cap).map (fun i => i + 1) }

/-- `ObjectPoolBlock<T>::for_each` (lines 163-176): the list of slots passed
to the visitor, in visit order. -/
def Block.forEachList (b : Block) : List Nat :=
  (List.range b.cap).filter (fun i => b.indices.getD i 0 == i)

/-- `ObjectPoolBlock<T>::num_allocations` (lines 191-200): counts the
`for_each` visits. -/
def Block.numAllocations (b : Block) : Nat :=
  b.forEachList.length

/-! ### The free-list invariant of a block -/

/-- `Block.chain b fl h`: starting from head value `h`, the free list of `b`
runs exactly through the slots in `fl` (in order) and then terminates at the
sentinel `b.cap`. -/
def Block.chain (b : Block) : List Nat → Nat → Prop
  | [], h => h = b.cap
  | i :: rest, h => h = i ∧ i < b.cap ∧ Block.chain b rest (b.indices.getD i 0)

/-- Well-formedness of a block relative to an explicit free list `fl`:
the index table has the right length, the free list from `free_head_index_`
visits the slots of `fl` (each once, `fl.Nodup`) and ends at `cap`, and a
slot below `cap` is on the free list exactly when it is not marked occupied
(`indices[i] == i`). -/
def Block.WfL (b : Block) (fl : List Nat) : Prop :=
  b.indices.length = b.cap ∧ fl.Nodup ∧ Block.chain b fl b.freeHead ∧
    ∀ i, i < b.cap → (i ∈ fl ↔ b.indices.getD i 0 ≠ i)

/-- The block free-list invariant (spec §3): some list `fl` of free slots is
visited exactly once by the free list, which terminates at `capacity`, and
the slots not on the free list are exactly the occupied ones. -/
def Block.Wf (b : Block) : Prop :=
  ∃ fl : List Nat, Block.WfL b fl

theorem Block.chain_subset_lt {b : Block} {fl : List Nat} {h : Nat}
    (hc : Block.chain b fl h) : ∀ i ∈ fl, i < b.cap := by
  induction fl generalizing h with
  | nil => intro i hi; simp at hi
  | cons x rest ih =>
    intro i hi
    rcases hc with ⟨-, hx, hrest⟩
    rcases List.mem_cons.mp hi with h1 | h1
    · rw [h1]; exact hx
    · exact ih hrest i h1

theorem Block.chain_cap_nil {b : Block} {fl : List Nat}
    (hc : Block.chain b fl b.cap) : fl = [] := by
  cases fl with
  | nil => rfl
  | cons x rest =>
    rcases hc with ⟨hx, hlt, -⟩
    omega

/-- Chains only inspect `indices` entries at members of the chain, so they
transfer between blocks agreeing there. -/
theorem Block.chain_congr {b b' : Block} {fl : List Nat} {h : Nat}
    (hc : Block.chain b fl h) (hcap : b'.cap = b.cap)
    (hag : ∀ i ∈ fl, b'.indices.getD i 0 = b.indices.getD i 0) :
    Block.chain b' fl h := by
  induction fl generalizing h with
  | nil => simpa [Block.chain, hcap] using hc
  | cons x rest ih =>
    rcases hc with ⟨hx, hlt, hrest⟩
    refine ⟨hx, by omega, ?_⟩
    rw [hag x (List.mem_cons_self _ _)]
    exact ih hrest (fun i hi => hag i (List.mem_cons_of_mem _ hi))

/-- The constructor establishes the invariant with free list `[0, …, n-1]`. -/
theorem Block.wfL_create (n : Nat) : Block.WfL (Block.create n) (List.range n) := by
  refine ⟨by simp [Block.create], List.nodup_range n, ?_, ?_⟩
  · have key : ∀ m k, k ≤ n → m = n - k →
        Block.chain (Block.create n) (List.range' k m) k := by
      intro m
      induction m with
      | zero =>
        intro k hk hm
        have : k = n := by omega
        simp [List.range', Block.chain, Block.create, this]
      | succ m ih =>
        intro k hk hm
        have hklt : k < n := by omega
        refine ⟨rfl, by simpa [Block.create] using hklt, ?_⟩
        have : (Block.create n).indices.getD k 0 = k + 1 := by
          simp only [Block.create]
          rw [List.getD_eq_getElem?_getD]
          simp [List.getElem?_map, List.getElem?_range, hklt]
        rw [this]
        exact ih (k + 1) (by omega) (by omega)
    have h0 : List.range n = List.range' 0 n := by
      rw [List.range_eq_range']
    rw [h0]
    exact key n 0 (Nat.zero_le n) (by omega)
  · intro i hi
    constructor
    · intro _
      have : (Block.create n).indices.getD i 0 = i + 1 := by
        simp only [Block.create]
        rw [List.getD_eq_getElem?_getD]
        simp only [Block.create] at hi
        simp [List.getElem?_map, List.getElem?_range, hi]
      omega
    · intro _
      simp only [Block.create] at hi ⊢
      exact List.mem_range.mpr hi

theorem Block.cap_create (n : Nat) : (Block.create n).cap = n := rfl

/-- `delete_all` literally rebuilds the constructor state. -/
theorem Block.deleteAll_eq_create (b : Block) : b.deleteAll = Block.create b.cap := rfl

/-- An empty free list means the block is full: `new_object` fails and the
block is unchanged. -/
theorem Block.newObject_nil {b : Block} (hw : Block.WfL b []) :
    b.newObject = (b, none) := by
  rcases hw with ⟨-, -, hc, -⟩
  have : b.freeHead = b.cap := hc
  simp [Block.newObject, this]

/-- A non-empty free list means `new_object` pops its head `h`, returns the
pointer to slot `h`, and the rest of the free list witnesses the invariant. -/
theorem Block.newObject_cons {b : Block} {h : Nat} {rest : List Nat}
    (hw : Block.WfL b (h :: rest)) :
    (b.newObject).2 = some h ∧ (b.newObject).1.cap = b.cap ∧
      Block.WfL (b.newObject).1 rest := by
  rcases hw with ⟨hlen, hnd, hc, hmem⟩
  rcases hc with ⟨hh, hhlt, hcrest⟩
  subst hh
  have hne : b.freeHead ≠ b.cap := by omega
  have hres : b.newObject =
      ({ b with freeHead := b.indices.getD b.freeHead 0,
                indices := b.indices.set b.freeHead b.freeHead }, some b.freeHead) := by
    simp [Block.newObject, hne]
  have hnotmem : b.freeHead ∉ rest := (List.nodup_cons.mp hnd).1
  rw [hres]
  refine ⟨rfl, rfl, ?_, ?_, ?_, ?_⟩
  · show (b.indices.set b.freeHead b.freeHead).length = b.cap
    rw [List.length_set]; exact hlen
  · exact (List.nodup_cons.mp hnd).2
  · show Block.chain _ rest (b.indices.getD b.freeHead 0)
    refine Block.chain_congr hcrest rfl ?_
    intro i hi
    show (b.indices.set b.freeHead b.freeHead).getD i 0 = b.indices.getD i 0
    exact getD_set_ne _ _ _ _ _ (fun he => hnotmem (he ▸ hi))
  · intro i hilt
    show i ∈ rest ↔ (b.indices.set b.freeHead b.freeHead).getD i 0 ≠ i
    by_cases hih : i = b.freeHead
    · rw [hih, getD_set_self _ _ _ _ (by rw [hlen]; exact hhlt)]
      constructor
      · intro hmem'; exact absurd hmem' hnotmem
      · intro hne'; exact absurd rfl hne'
    · have hset : (b.indices.set b.freeHead b.freeHead).getD i 0 = b.indices.getD i 0 :=
        getD_set_ne _ _ _ _ _ (fun he => hih he.symm)
      rw [hset]
      constructor
      · intro hr; exact (hmem i hilt).mp (List.mem_cons_of_mem _ hr)
      · intro hne'
        rcases List.mem_cons.mp ((hmem i hilt).mpr hne') with h1 | h1
        · exact absurd h1 hih
        · exact h1

/-- Deleting an occupied slot `s` pushes it onto the front of the free list
and preserves the invariant. -/
theorem Block.deleteObject_wfL {b : Block} {fl : List Nat} {s : Nat}
    (hw : Block.WfL b fl) (hs : s < b.cap) (ho : b.indices.getD s 0 = s) :
    Block.WfL (b.deleteObject (some s)) (s :: fl) := by
  rcases hw with ⟨hlen, hnd, hc, hmem⟩
  have hsnot : s ∉ fl := by
    intro hin
    exact ((hmem s hs).mp hin) ho
  have hslen : s < b.indices.length := by rw [hlen]; exact hs
  have hres : b.deleteObject (some s) =
      { b with indices := b.indices.set s b.freeHead, freeHead := s } := rfl
  have hfh : b.freeHead ≠ s := by
    cases fl with
    | nil =>
      have : b.freeHead = b.cap := hc
      omega
    | cons x rest =>
      rcases hc with ⟨hx, -, -⟩
      intro he
      exact hsnot (by rw [← he, hx]; exact List.mem_cons_self _ _)
  rw [hres]
  refine ⟨?_, List.nodup_cons.mpr ⟨hsnot, hnd⟩, ?_, ?_⟩
  · show (b.indices.set s b.freeHead).length = b.cap
    rw [List.length_set]; exact hlen
  · refine ⟨rfl, hs, ?_⟩
    show Block.chain _ fl ((b.indices.set s b.freeHead).getD s 0)
    rw [getD_set_self _ _ _ _ hslen]
    refine Block.chain_congr hc rfl ?_
    intro i hi
    show (b.indices.set s b.freeHead).getD i 0 = b.indices.getD i 0
    exact getD_set_ne _ _ _ _ _ (fun he => hsnot (he ▸ hi))
  · intro i hilt
    show i ∈ s :: fl ↔ (b.indices.set s b.freeHead).getD i 0 ≠ i
    by_cases hih : i = s
    · subst hih
      rw [getD_set_self _ _ _ _ hslen]
      constructor
      · intro _; exact hfh
      · intro _; exact List.mem_cons_self _ _
    · rw [getD_set_ne _ _ _ _ _ (fun he => hih he.symm)]
      constructor
      · intro hin
        rcases List.mem_cons.mp hin with h1 | h1
        · exact absurd h1 hih
        · exact (hmem i hilt).mp h1
      · intro hne'
        exact List.mem_cons_of_mem _ ((hmem i hilt).mpr hne')

/-- Counting: the number of occupied slots plus the length of the free list
is the capacity. -/
theorem Block.numAllocations_add_length {b : Block} {fl : List Nat}
    (hw : Block.WfL b fl) : b.numAllocations + fl.length = b.cap := by
  rcases hw with ⟨-, hnd, hc, hmem⟩
  have hperm : fl.Perm ((List.range b.cap).filter
      (fun i => !(b.indices.getD i 0 == i))) := by
    rw [List.perm_ext_iff_of_nodup hnd ((List.nodup_range b.cap).filter _)]
    intro a
    rw [List.mem_filter, List.mem_range]
    constructor
    · intro ha
      have halt : a < b.cap := Block.chain_subset_lt hc a ha
      refine ⟨halt, ?_⟩
      have := (hmem a halt).mp ha
      simpa using this
    · rintro ⟨halt, hne⟩
      refine (hmem a halt).mpr ?_
      simpa using hne
  have hlenfl : fl.length = ((List.range b.cap).filter
      (fun i => !(b.indices.getD i 0 == i))).length := hperm.length_eq
  have := filter_length_split (List.range b.cap)
      (fun i => b.indices.getD i 0 == i)
  simp only [List.length_range] at this
  simp only [Block.numAllocations, Block.forEachList]
  omega

/-- If some slot is occupied, there is at least one allocation. -/
theorem Block.numAllocations_pos {b : Block} {s : Nat}
    (hs : s < b.cap) (ho : b.indices.getD s 0 = s) : 0 < b.numAllocations := by
  have : s ∈ b.forEachList := by
    simp only [Block.forEachList, List.mem_filter, List.mem_range]
    refine ⟨hs, ?_⟩
    simp only [beq_iff_eq]
    exact ho
  simp only [Block.numAllocations]
  exact List.length_pos.mpr (fun he => by simp [he] at this)

/-! ### Reachable block states

`Block.ReachN n b m` holds when block `b` arises from `ObjectPoolBlock(n)`
by some sequence of `new_object`, `delete_object` and `delete_all` calls in
which only currently allocated slots are deleted (the assertion-checked
discipline of `delete_object`); `m` counts the outstanding (allocated and
not yet deleted) objects. -/
inductive Block.ReachN : Nat → Block → Nat → Prop where
  | create (n : Nat) : Block.ReachN n (Block.create n) 0
  | newObj {n : Nat} {b : Block} {m : Nat} :
      Block.ReachN n b m →
      Block.ReachN n (b.newObject).1 (m + if (b.newObject).2.isSome then 1 else 0)
  | del {n : Nat} {b : Block} {m s : Nat} :
      Block.ReachN n b m → s < b.cap → b.indices.getD s 0 = s →
      Block.ReachN n (b.deleteObject (some s)) (m - 1)
  | delAll {n : Nat} {b : Block} {m : Nat} :
      Block.ReachN n b m → Block.ReachN n b.deleteAll 0

/-- Master invariant for reachable blocks: the free-list invariant holds,
the capacity is the construction capacity, and the outstanding count plus
the free-list length is the capacity. -/
theorem Block.reach_master {n : Nat} {b : Block} {m : Nat}
    (h : Block.ReachN n b m) :
    ∃ fl : List Nat, Block.WfL b fl ∧ b.cap = n ∧ b.cap = m + fl.length := by
  induction h with
  | create =>
    refine ⟨List.range _, Block.wfL_create _, Block.cap_create _, ?_⟩
    rw [Block.cap_create]
    simp
  | newObj hr ih =>
    rcases ih with ⟨fl, hw, hcap, hcount⟩
    cases fl with
    | nil =>
      have hres := Block.newObject_nil hw
      rw [hres]
      exact ⟨[], hw, hcap, by simpa using hcount⟩
    | cons h rest =>
      obtain ⟨hsome, hcap', hw'⟩ := Block.newObject_cons hw
      refine ⟨rest, hw', by rw [hcap']; exact hcap, ?_⟩
      rw [hcap', hsome]
      simp only [Option.isSome_some, if_pos]
      simp only [List.length_cons] at hcount
      omega
  | @del b m s hr hs ho ih =>
    rcases ih with ⟨fl, hw, hcap, hcount⟩
    refine ⟨s :: fl, Block.deleteObject_wfL hw hs ho, hcap, ?_⟩
    have hm1 : 0 < m := by
      have hfla := Block.numAllocations_add_length hw
      have := Block.numAllocations_pos hs ho
      omega
    simp only [List.length_cons]
    have hcc : (b.deleteObject (some s)).cap = b.cap := rfl
    omega
  | @delAll b m hr ih =>
    rcases ih with ⟨fl, hw, hcap, hcount⟩
    rw [Block.deleteAll_eq_create]
    exact ⟨List.range b.cap, Block.wfL_create b.cap,
      by rw [Block.cap_create]; exact hcap, by simp [Block.cap_create]⟩

/-! ### `FixedObjectPool<T>` (`src/object_pool.inl` lines 204-250)

A thin forwarding wrapper over a single block. -/

structure FixedPool where
  block : Block
deriving Repr, DecidableEq

/-- `FixedObjectPool<T>::FixedObjectPool(max_entries)`. -/
def FixedPool.create (n : Nat) : FixedPool := ⟨Block.create n⟩

/-- `FixedObjectPool<T>::new_object`. -/
def FixedPool.newObject (f : FixedPool) : FixedPool × Option Nat :=
  let r := f.block.newObject
  (⟨r.1⟩, r.2)

/-- `FixedObjectPool<T>::delete_object`. -/
def FixedPool.deleteObject (f : FixedPool) (q : Option Nat) : FixedPool :=
  ⟨f.block.deleteObject q⟩

/-- `FixedObjectPool<T>::delete_all`. -/
def FixedPool.deleteAll (f : FixedPool) : FixedPool := ⟨f.block.deleteAll⟩

/-- `FixedObjectPool<T>::for_each`. -/
def FixedPool.forEachList (f : FixedPool) : List Nat := f.block.forEachList

/-- `FixedObjectPool<T>::calc_stats` (lines 243-250):
`(num_blocks, num_allocations)`. -/
def FixedPool.calcStats (f : FixedPool) : Nat × Nat :=
  (1, f.block.numAllocations)

/-- Reachable fixed-pool states with outstanding count, forwarding to the
block reachability relation (every `FixedObjectPool` method forwards 1:1 to
its single block). -/
def FixedPool.ReachN (n : Nat) (f : FixedPool) (m : Nat) : Prop :=
  Block.ReachN n f.block m

/-! ### `DynamicObjectPool<T>` (`src/object_pool.inl` lines 252-444)

`BlockInfo` mirrors the C++ `BlockInfo`: `numFree` |= `num_free_`,
`ident` |= `offset_` (the block's payload address, unique per created
block — modelled by a counter `nextId` on the pool), `block` |= `block_`.
A pool pointer is a pair `(ident, slot)`: the address of payload slot
`slot` of the block whose payload starts at `ident`. -/

structure BlockInfo where
  numFree : Nat
  ident : Nat
  block : Block
deriving Repr, DecidableEq

instance : Inhabited BlockInfo := ⟨⟨0, 0, Block.create 0⟩⟩

structure DynPool where
  blocks : List BlockInfo
  freeBlockIndex : Nat
  entriesPerBlock : Nat
  nextId : Nat
deriving Repr, DecidableEq

/-- `DynamicObjectPool<T>::add_block` (lines 270-289), success case:
appends a fresh block info record at index `num_blocks_` (the code writes
it at `free_block_index_`, which equals `num_blocks_` by the assertion at
line 273). -/
def DynPool.addBlock (p : DynPool) : DynPool :=
  { p with
    blocks := p.blocks ++
      [{ numFree := p.entriesPerBlock, ident := p.nextId,
         block := Block.create p.entriesPerBlock }],
    nextId := p.nextId + 1 }

/-- `DynamicObjectPool<T>::DynamicObjectPool(entries_per_block)`
(lines 252-261): starts empty and eagerly adds one block. -/
def DynPool.create (epb : Nat) : DynPool :=
  DynPool.addBlock { blocks := [], freeBlockIndex := 0,
                     entriesPerBlock := epb, nextId := 0 }

/-- Number of leading blocks with `num_free_ == 0`: the scan loop of
`new_object` (lines 298-302). -/
def leadFull : List BlockInfo → Nat
  | [] => 0
  | info :: rest => if info.numFree = 0 then leadFull rest + 1 else 0

/-- The common tail of `DynamicObjectPool<T>::new_object` (lines 317-322):
construct in the block at index `i`, decrement its cached free count and
return the pointer `(ident, slot)`. -/
def DynPool.serveAt (p : DynPool) (i : Nat) : DynPool × Option (Nat × Nat) :=
  let info := p.blocks.getD i default
  let res := info.block.newObject
  let info' : BlockInfo := { info with numFree := info.numFree - 1, block := res.1 }
  ({ p with blocks := p.blocks.set i info' },
   res.2.map (fun s => (info.ident, s)))

/-- The scan of `new_object` (lines 298-302): starting at
`free_block_index_`, skip blocks with `num_free_ == 0`; result is
`p_info - block_info_`. -/
def DynPool.scanIdx (p : DynPool) : Nat :=
  p.freeBlockIndex + leadFull (p.blocks.drop p.freeBlockIndex)

/-- `DynamicObjectPool<T>::new_object` (lines 291-323).  `allocOk` is the
oracle for the success of `Block::create`'s `aligned_malloc` when a new
block has to be added.  Note the code updates `free_block_index_` to the
scan result *before* attempting `add_block`. -/
def DynPool.newObject (p : DynPool) (allocOk : Bool) : DynPool × Option (Nat × Nat) :=
  let i := p.scanIdx
  let p1 := { p with freeBlockIndex := i }
  if i = p.blocks.length then
    if allocOk then (p1.addBlock).serveAt i
    else (p1, none)
  else
    p1.serveAt i

/-- The pointer-classification test of `delete_object` (lines 331-333):
`ptr >= p_entries_begin && ptr < p_entries_end`.  The null pointer lies in
no block's payload range. -/
def ptrMatch (epb : Nat) (info : BlockInfo) : Option (Nat × Nat) → Bool
  | none => false
  | some q => info.ident == q.1 && decide (q.2 < epb)

/-- The block-scan loop of `delete_object` (lines 328-344): index of the
first block whose payload range contains the pointer. -/
def findBlock (epb : Nat) (q : Option (Nat × Nat)) : List BlockInfo → Option Nat
  | [] => none
  | info :: rest =>
    if ptrMatch epb info q then some 0
    else (findBlock epb q rest).map (fun j => j + 1)

/-- Slot offset `ptr - p_entries_begin` of a pointer. -/
def ptrSlot : Option (Nat × Nat) → Nat
  | none => 0
  | some q => q.2

/-- `DynamicObjectPool<T>::delete_object` (lines 325-345), release
semantics: find the owning block, delegate, bump its free count, and lower
the cursor if the block sits before it.  A pointer owned by no block (in
particular `nullptr`) falls through the loop and the pool is unchanged. -/
def DynPool.deleteObject (p : DynPool) (q : Option (Nat × Nat)) : DynPool :=
  match findBlock p.entriesPerBlock q p.blocks with
  | none => p
  | some j =>
    let info := p.blocks.getD j default
    let info' : BlockInfo :=
      { info with numFree := info.numFree + 1,
                  block := info.block.deleteObject (some (ptrSlot q)) }
    { p with
      blocks := p.blocks.set j info',
      freeBlockIndex := if j < p.freeBlockIndex then j else p.freeBlockIndex }

/-- `DynamicObjectPool<T>::delete_object` with the block-level assertions
made explicit (`none` = a debug assertion fires inside
`ObjectPoolBlock::delete_object`).  A pointer owned by no block falls
through the loop and the call returns normally — there is no assertion for
that case in the C++ code. -/
def DynPool.deleteObjectChecked (p : DynPool) (q : Option (Nat × Nat)) :
    Option DynPool :=
  match findBlock p.entriesPerBlock q p.blocks with
  | none => some p
  | some j =>
    let info := p.blocks.getD j default
    (info.block.deleteObjectChecked (some (ptrSlot q))).map (fun bl =>
      { p with
        blocks := p.blocks.set j ({ info with numFree := info.numFree + 1,
                                              block := bl }),
        freeBlockIndex := if j < p.freeBlockIndex then j else p.freeBlockIndex })

/-- `DynamicObjectPool<T>::delete_all` (lines 347-357). -/
def DynPool.deleteAll (p : DynPool) : DynPool :=
  { p with
    blocks := p.blocks.map (fun info =>
      ({ info with block := info.block.deleteAll, numFree := p.entriesPerBlock })),
    freeBlockIndex := 0 }

/-- State of the partition loop of `reclaim_memory` (lines 362-383). -/
structure RState where
  arr : List BlockInfo
  usedIdx : Nat
  emptyIdx : Nat
deriving Repr

/-- `std::swap(block_info_[i], block_info_[j])`. -/
def swapL (l : List BlockInfo) (i j : Nat) : List BlockInfo :=
  (l.set i (l.getD j default)).set j (l.getD i default)

/-- One iteration of the partition loop of `reclaim_memory`
(lines 366-383). -/
def rstep (epb N : Nat) (s : RState) (index : Nat) : RState :=
  let s1 :=
    if (s.arr.getD index default).numFree ≠ epb then
      { s with usedIdx := index }
    else if index < s.emptyIdx then
      { s with emptyIdx := index }
    else s
  if s1.emptyIdx < s1.usedIdx ∧ s1.usedIdx ≠ N then
    { arr := swapL s1.arr s1.emptyIdx s1.usedIdx,
      usedIdx := s1.emptyIdx, emptyIdx := s1.emptyIdx + 1 }
  else s1

/-- The cursor recomputation loop of `reclaim_memory` (lines 403-412):
index of the first block with free space, or the length if none. -/
def firstFreeIdx : List BlockInfo → Nat
  | [] => 0
  | info :: rest => if info.numFree ≠ 0 then 0 else firstFreeIdx rest + 1

/-- Result of the partition loop over all block indices. -/
def DynPool.reclaimScan (p : DynPool) : RState :=
  (List.range p.blocks.length).foldl
    (rstep p.entriesPerBlock p.blocks.length)
    ⟨p.blocks, p.blocks.length, p.blocks.length⟩

/-- `DynamicObjectPool<T>::reclaim_memory` (lines 359-413): partition used
blocks to the front, keep one block if all are empty, destroy the empty
suffix, and recompute the cursor. -/
def DynPool.reclaimMemory (p : DynPool) : DynPool :=
  let s := p.reclaimScan
  let u := if s.usedIdx = p.blocks.length then 0 else s.usedIdx
  let newBlocks := s.arr.take (u + 1)
  { p with blocks := newBlocks, freeBlockIndex := firstFreeIdx newBlocks }

/-- The suffix of blocks destroyed by `reclaim_memory` (lines 392-396). -/
def DynPool.reclaimDestroyed (p : DynPool) : List BlockInfo :=
  let s := p.reclaimScan
  let u := if s.usedIdx = p.blocks.length then 0 else s.usedIdx
  s.arr.drop (u + 1)

/-- `DynamicObjectPool<T>::for_each` (lines 415-427): blocks in index
order, skipping blocks with `num_free_ == entries_per_block_`; each visited
address is the pair `(ident, slot)`. -/
def DynPool.forEachList (p : DynPool) : List (Nat × Nat) :=
  p.blocks.foldr
    (fun info acc =>
      (if info.numFree < p.entriesPerBlock then
        info.block.forEachList.map (fun s => (info.ident, s))
      else []) ++ acc)
    []

/-- `DynamicObjectPool<T>::calc_stats` (lines 429-444):
`(num_blocks, num_allocations)` where allocations are summed over blocks
with `num_free_ < entries_per_block_`. -/
def DynPool.calcStats (p : DynPool) : Nat × Nat :=
  (p.blocks.length,
   p.blocks.foldl
     (fun acc info =>
       if info.numFree < p.entriesPerBlock then acc + info.block.numAllocations
       else acc)
     0)

/-- A pointer is valid to delete when the block-scan of `delete_object`
finds an owning block in which the pointed-to slot is currently allocated
(a pointer previously returned by `new_object` and not freed since). -/
def DynPool.validPtr (p : DynPool) (q : Nat × Nat) : Bool :=
  match findBlock p.entriesPerBlock (some q) p.blocks with
  | none => false
  | some j => (p.blocks.getD j default).block.indices.getD q.2 0 == q.2

/-- Ghost total of live objects across all blocks. -/
def DynPool.allocSum (p : DynPool) : Nat :=
  (p.blocks.map (fun info => info.block.numAllocations)).sum

/-- Reachable dynamic-pool states paired with their outstanding allocation
count: construction (`entries_per_block` positive, per spec §6), then any
sequence of `new_object` (with either oracle outcome), `delete_object` of a
valid pointer, `delete_all` and `reclaim_memory`. -/
inductive DynPool.Reach : DynPool → Nat → Prop where
  | create (epb : Nat) : 0 < epb → DynPool.Reach (DynPool.create epb) 0
  | newOk {p : DynPool} {n : Nat} {p' : DynPool} {r : Nat × Nat} (ok : Bool) :
      DynPool.Reach p n → p.newObject ok = (p', some r) → DynPool.Reach p' (n + 1)
  | newFail {p : DynPool} {n : Nat} {p' : DynPool} (ok : Bool) :
      DynPool.Reach p n → p.newObject ok = (p', none) → DynPool.Reach p' n
  | del {p : DynPool} {n : Nat} (q : Nat × Nat) :
      DynPool.Reach p n → p.validPtr q = true →
      DynPool.Reach (p.deleteObject (some q)) (n - 1)
  | delAll {p : DynPool} {n : Nat} :
      DynPool.Reach p n → DynPool.Reach p.deleteAll 0
  | reclaim {p : DynPool} {n : Nat} :
      DynPool.Reach p n → DynPool.Reach p.reclaimMemory n

/-- The dynamic-pool invariant (spec §3): positive block size, at least one
block, every `BlockInfo` carries a well-formed block of capacity
`entries_per_block` whose cached `num_free_` is exact, the cursor is at
most the block count and all blocks before it are full, and the payload
addresses (`ident`) are pairwise distinct and below the allocation
counter. -/
def DynPool.Wf (p : DynPool) : Prop :=
  0 < p.entriesPerBlock ∧
  p.blocks ≠ [] ∧
  (∀ info ∈ p.blocks, info.block.Wf ∧ info.block.cap = p.entriesPerBlock ∧
     info.numFree + info.block.numAllocations = p.entriesPerBlock) ∧
  p.freeBlockIndex ≤ p.blocks.length ∧
  (∀ j, j < p.freeBlockIndex → (p.blocks.getD j default).numFree = 0) ∧
  (p.blocks.map BlockInfo.ident).Nodup ∧
  (∀ info ∈ p.blocks, info.ident < p.nextId)

/-! ### Scan and lookup lemmas for the dynamic pool -/

theorem getD_map_block {α : Type} (l : List BlockInfo) (f : BlockInfo → α)
    (i : Nat) (d : α) (h : i < l.length) :
    (l.map f).getD i d = f (l.getD i default) := by
  induction l generalizing i with
  | nil => simp at h
  | cons x xs ih =>
    cases i with
    | zero => rfl
    | succ n =>
      simp only [List.map, List.getD_cons_succ]
      exact ih n (by simpa using h)

theorem leadFull_le (l : List BlockInfo) : leadFull l ≤ l.length := by
  induction l with
  | nil => simp [leadFull]
  | cons x xs ih =>
    simp only [leadFull, List.length_cons]
    split
    · omega
    · omega

theorem leadFull_full (l : List BlockInfo) :
    ∀ k, k < leadFull l → (l.getD k default).numFree = 0 := by
  induction l with
  | nil => intro k hk; simp [leadFull] at hk
  | cons x xs ih =>
    intro k hk
    simp only [leadFull] at hk
    by_cases hx : x.numFree = 0
    · rw [if_pos hx] at hk
      cases k with
      | zero => exact hx
      | succ n =>
        simp only [List.getD_cons_succ]
        exact ih n (by omega)
    · rw [if_neg hx] at hk
      omega

theorem leadFull_free (l : List BlockInfo) (h : leadFull l < l.length) :
    (l.getD (leadFull l) default).numFree ≠ 0 := by
  induction l with
  | nil => simp at h
  | cons x xs ih =>
    simp only [leadFull] at h ⊢
    by_cases hx : x.numFree = 0
    · rw [if_pos hx] at h ⊢
      simp only [List.getD_cons_succ]
      exact ih (by simpa using h)
    · rw [if_neg hx]
      exact hx

/-- `findBlock` finds nothing for the null pointer. -/
theorem findBlock_none (epb : Nat) (l : List BlockInfo) :
    findBlock epb none l = none := by
  induction l with
  | nil => rfl
  | cons x xs ih => simp [findBlock, ptrMatch, ih]

theorem findBlock_some {epb : Nat} {q : Option (Nat × Nat)} {l : List BlockInfo}
    {j : Nat} (h : findBlock epb q l = some j) :
    j < l.length ∧ ptrMatch epb (l.getD j default) q = true := by
  induction l generalizing j with
  | nil => simp [findBlock] at h
  | cons x xs ih =>
    simp only [findBlock] at h
    by_cases hx : ptrMatch epb x q = true
    · rw [if_pos hx] at h
      cases h
      exact ⟨by simp, hx⟩
    · rw [if_neg hx] at h
      cases hj : findBlock epb q xs with
      | none => rw [hj] at h; simp at h
      | some j0 =>
        rw [hj] at h
        rw [Option.map_some'] at h
        obtain ⟨hlt, hm⟩ := ih hj
        cases h
        exact ⟨by simpa using Nat.succ_lt_succ hlt, by simpa using hm⟩

/-- `calc_stats` sums `num_allocations` over the non-empty blocks:
fold-to-map-sum bridge. -/
theorem foldl_if_sum (epb : Nat) (l : List BlockInfo) (a : Nat) :
    l.foldl
      (fun acc info =>
        if info.numFree < epb then acc + info.block.numAllocations else acc) a =
    a + (l.map (fun info =>
      if info.numFree < epb then info.block.numAllocations else 0)).sum := by
  induction l generalizing a with
  | nil => simp
  | cons x xs ih =>
    simp only [List.foldl_cons, List.map, List.sum_cons]
    split
    · rw [ih]; omega
    · rw [ih]; omega

/-- Under the per-block free-count invariant, `calc_stats().num_allocations`
equals the total over all blocks (empty blocks contribute zero). -/
theorem DynPool.calcStats_snd_eq_allocSum (p : DynPool) (hw : DynPool.Wf p) :
    p.calcStats.2 = p.allocSum := by
  obtain ⟨hepb, -, hblocks, -⟩ := hw
  show p.blocks.foldl _ 0 = _
  rw [foldl_if_sum]
  simp only [Nat.zero_add, DynPool.allocSum]
  congr 1
  apply List.map_congr_left
  intro info hin
  obtain ⟨-, -, hsum⟩ := hblocks info hin
  by_cases hlt : info.numFree < p.entriesPerBlock
  · rw [if_pos hlt]
  · rw [if_neg hlt]
    omega

theorem Block.numAllocations_create (n : Nat) :
    (Block.create n).numAllocations = 0 := by
  have h := Block.numAllocations_add_length (Block.wfL_create n)
  rw [Block.cap_create] at h
  simp only [List.length_range] at h
  omega

/-- `DynamicObjectPool(epb)` is well-formed with zero outstanding objects. -/
theorem DynPool.wf_create (epb : Nat) (h : 0 < epb) :
    DynPool.Wf (DynPool.create epb) ∧ (DynPool.create epb).allocSum = 0 := by
  have hc : DynPool.create epb =
      { blocks := [{ numFree := epb, ident := 0, block := Block.create epb }],
        freeBlockIndex := 0, entriesPerBlock := epb, nextId := 1 } := rfl
  rw [hc]
  refine ⟨⟨h, by simp, ?_, by simp, ?_, by simp, ?_⟩, ?_⟩
  · intro info hin
    simp only [List.mem_singleton] at hin
    subst hin
    refine ⟨⟨List.range epb, Block.wfL_create epb⟩, Block.cap_create epb, ?_⟩
    simp [Block.numAllocations_create]
  · intro j hj
    simp at hj
  · intro info hin
    simp only [List.mem_singleton] at hin
    subst hin
    simp
  · simp [DynPool.allocSum, Block.numAllocations_create]

/-! ### Preservation of the dynamic-pool invariant by `new_object` -/

theorem DynPool.scanIdx_ge (p : DynPool) : p.freeBlockIndex ≤ p.scanIdx := by
  simp only [DynPool.scanIdx]
  omega

theorem DynPool.scanIdx_le (p : DynPool) (h : p.freeBlockIndex ≤ p.blocks.length) :
    p.scanIdx ≤ p.blocks.length := by
  have h1 := leadFull_le (p.blocks.drop p.freeBlockIndex)
  rw [List.length_drop] at h1
  simp only [DynPool.scanIdx]
  omega

theorem DynPool.scanIdx_full (p : DynPool) :
    ∀ j, p.freeBlockIndex ≤ j → j < p.scanIdx →
      (p.blocks.getD j default).numFree = 0 := by
  intro j h1 h2
  obtain ⟨k, hk⟩ : ∃ k, j = p.freeBlockIndex + k := ⟨j - p.freeBlockIndex, by omega⟩
  subst hk
  have h3 : k < leadFull (p.blocks.drop p.freeBlockIndex) := by
    simp only [DynPool.scanIdx] at h2
    omega
  have := leadFull_full (p.blocks.drop p.freeBlockIndex) k h3
  rwa [getD_drop] at this

theorem DynPool.scanIdx_free (p : DynPool) (h : p.scanIdx < p.blocks.length) :
    (p.blocks.getD p.scanIdx default).numFree ≠ 0 := by
  have hlt : leadFull (p.blocks.drop p.freeBlockIndex) <
      (p.blocks.drop p.freeBlockIndex).length := by
    rw [List.length_drop]
    simp only [DynPool.scanIdx] at h
    omega
  have := leadFull_free (p.blocks.drop p.freeBlockIndex) hlt
  rwa [getD_drop] at this

/-- The updated `BlockInfo` record after `serveAt`: free count decremented,
block advanced by one `new_object`. -/
def BlockInfo.served (info : BlockInfo) : BlockInfo :=
  { info with numFree := info.numFree - 1, block := (info.block.newObject).1 }

/-- `serveAt` with a non-full block: the constructed slot is the head of the
block's free list and the pool is updated exactly at index `i`. -/
theorem DynPool.serveAt_spec (q : DynPool) (i : Nat) {h0 : Nat} {rest : List Nat}
    (hwb : Block.WfL (q.blocks.getD i default).block (h0 :: rest)) :
    q.serveAt i =
      ({ q with blocks := q.blocks.set i (q.blocks.getD i default).served },
       some ((q.blocks.getD i default).ident, h0)) := by
  have h2 := (Block.newObject_cons hwb).1
  simp only [DynPool.serveAt, BlockInfo.served]
  rw [h2]
  rfl

/-- Serving a block with free space from a pool satisfying the invariant
pieces (with the cursor already set to the serving index, as `new_object`
does): the result is well-formed and has one more live object. -/
theorem DynPool.serve_preserves (q : DynPool) (i : Nat)
    (hepb : 0 < q.entriesPerBlock)
    (hblocks : ∀ info ∈ q.blocks, info.block.Wf ∧
      info.block.cap = q.entriesPerBlock ∧
      info.numFree + info.block.numAllocations = q.entriesPerBlock)
    (hids : (q.blocks.map BlockInfo.ident).Nodup)
    (hbound : ∀ info ∈ q.blocks, info.ident < q.nextId)
    (hlen : i < q.blocks.length)
    (hpfull : ∀ j, j < i → (q.blocks.getD j default).numFree = 0)
    (hcursor : q.freeBlockIndex = i)
    (hfree : (q.blocks.getD i default).numFree ≠ 0) :
    DynPool.Wf (q.serveAt i).1 ∧
    (q.serveAt i).1.allocSum = q.allocSum + 1 ∧
    (q.serveAt i).2.isSome = true ∧
    (q.serveAt i).1.entriesPerBlock = q.entriesPerBlock ∧
    (q.serveAt i).1.nextId = q.nextId ∧
    (q.serveAt i).1.freeBlockIndex = i ∧
    (q.serveAt i).2 = some ((q.blocks.getD i default).ident,
      (q.blocks.getD i default).block.freeHead) ∧
    ((q.serveAt i).1.blocks.getD i default).ident =
      (q.blocks.getD i default).ident := by
  have hmem : q.blocks.getD i default ∈ q.blocks := getD_mem _ _ _ hlen
  obtain ⟨⟨fl, hwfl⟩, hcap, hcount⟩ := hblocks _ hmem
  have hfl_ne : fl ≠ [] := by
    intro he
    subst he
    have := Block.numAllocations_add_length hwfl
    simp only [List.length_nil] at this
    omega
  obtain ⟨h0, rest, hflc⟩ : ∃ h0 rest, fl = h0 :: rest := by
    cases fl with
    | nil => exact absurd rfl hfl_ne
    | cons a l => exact ⟨a, l, rfl⟩
  subst hflc
  have hh0 : h0 = (q.blocks.getD i default).block.freeHead := by
    rcases hwfl with ⟨-, -, hch, -⟩
    exact hch.1.symm
  have hspec := DynPool.serveAt_spec q i hwfl
  obtain ⟨hsome, hcapnew, hwnew⟩ := Block.newObject_cons hwfl
  have hold := Block.numAllocations_add_length hwfl
  have hnew := Block.numAllocations_add_length hwnew
  rw [hcapnew] at hnew
  rw [hspec]
  have hlenset : (q.blocks.set i (q.blocks.getD i default).served).length =
      q.blocks.length := by simp
  have hservedF : (q.blocks.getD i default).served.numFree =
      (q.blocks.getD i default).numFree - 1 := rfl
  have hservedB : (q.blocks.getD i default).served.block =
      ((q.blocks.getD i default).block.newObject).1 := rfl
  have hservedI : (q.blocks.getD i default).served.ident =
      (q.blocks.getD i default).ident := rfl
  have hnum : (q.blocks.getD i default).served.block.numAllocations =
      (q.blocks.getD i default).block.numAllocations + 1 := by
    rw [hservedB]
    simp only [List.length_cons] at hold
    omega
  refine ⟨⟨hepb, ?_, ?_, ?_, ?_, ?_, ?_⟩, ?_, rfl, rfl, rfl, hcursor, by rw [hh0],
    show ((q.blocks.set i (q.blocks.getD i default).served).getD i default).ident =
        (q.blocks.getD i default).ident from
      by rw [getD_set_self _ _ _ _ hlen]; exact hservedI⟩
  · show q.blocks.set i (q.blocks.getD i default).served ≠ []
    intro he
    rw [he] at hlenset
    simp only [List.length_nil] at hlenset
    omega
  · show ∀ info ∈ q.blocks.set i (q.blocks.getD i default).served,
        info.block.Wf ∧ info.block.cap = q.entriesPerBlock ∧
        info.numFree + info.block.numAllocations = q.entriesPerBlock
    intro info hin
    rcases mem_of_mem_set _ _ _ _ hin with hold' | heq
    · exact hblocks _ hold'
    · subst heq
      refine ⟨⟨rest, by rw [hservedB]; exact hwnew⟩,
        by rw [hservedB, hcapnew]; exact hcap, ?_⟩
      rw [hservedF, hnum]
      simp only [List.length_cons] at hold
      omega
  · show q.freeBlockIndex ≤ (q.blocks.set i (q.blocks.getD i default).served).length
    rw [hlenset, hcursor]
    omega
  · intro j hj
    rw [hcursor] at hj
    show ((q.blocks.set i (q.blocks.getD i default).served).getD j default).numFree = 0
    rw [getD_set_ne _ _ _ _ _ (by omega)]
    exact hpfull j hj
  · show ((q.blocks.set i (q.blocks.getD i default).served).map BlockInfo.ident).Nodup
    rw [map_set_comm, hservedI]
    have hgd : (q.blocks.map BlockInfo.ident).getD i 0 =
        (q.blocks.getD i default).ident :=
      getD_map_block _ _ _ _ hlen
    rw [← hgd, set_getD_self _ _ _ (by rw [List.length_map]; exact hlen)]
    exact hids
  · show ∀ info ∈ q.blocks.set i (q.blocks.getD i default).served, _
    intro info hin
    rcases mem_of_mem_set _ _ _ _ hin with hold' | heq
    · exact hbound _ hold'
    · subst heq
      show (q.blocks.getD i default).served.ident < q.nextId
      rw [hservedI]
      exact hbound _ hmem
  · show ((q.blocks.set i (q.blocks.getD i default).served).map
        (fun info => info.block.numAllocations)).sum =
      (q.blocks.map (fun info => info.block.numAllocations)).sum + 1
    rw [map_set_comm]
    have hsum := sum_set_nat (q.blocks.map (fun info => info.block.numAllocations))
      i ((q.blocks.getD i default).served.block.numAllocations)
      (by rw [List.length_map]; exact hlen)
    have hgd : (q.blocks.map (fun info => info.block.numAllocations)).getD i 0 =
        (q.blocks.getD i default).block.numAllocations :=
      getD_map_block _ _ _ _ hlen
    rw [hgd] at hsum
    omega

theorem DynPool.newObject_eq_serve (p : DynPool) (ok : Bool)
    (h : ¬ p.scanIdx = p.blocks.length) :
    p.newObject ok = DynPool.serveAt { p with freeBlockIndex := p.scanIdx } p.scanIdx := by
  simp only [DynPool.newObject]
  rw [if_neg h]

theorem DynPool.newObject_eq_add (p : DynPool)
    (h : p.scanIdx = p.blocks.length) :
    p.newObject true =
      DynPool.serveAt (DynPool.addBlock { p with freeBlockIndex := p.scanIdx })
        p.scanIdx := by
  simp only [DynPool.newObject]
  rw [if_pos h]
  simp

theorem DynPool.newObject_eq_fail (p : DynPool)
    (h : p.scanIdx = p.blocks.length) :
    p.newObject false = ({ p with freeBlockIndex := p.scanIdx }, none) := by
  simp only [DynPool.newObject]
  rw [if_pos h, if_neg (by simp)]

/-- `new_object` preserves the invariant; a successful call adds exactly one
live object and moves the cursor forward to the serving block, while a
failed call (all blocks full and block creation failed) leaves the block
list untouched but sets the cursor to the block count. -/
theorem DynPool.newObject_step (p : DynPool) (ok : Bool) (hw : DynPool.Wf p) :
    DynPool.Wf (p.newObject ok).1 ∧
    (p.newObject ok).1.allocSum =
      p.allocSum + (if (p.newObject ok).2.isSome then 1 else 0) ∧
    (p.newObject ok).1.entriesPerBlock = p.entriesPerBlock ∧
    p.freeBlockIndex ≤ (p.newObject ok).1.freeBlockIndex ∧
    ((p.newObject ok).2 = none →
      (p.newObject ok).1.blocks = p.blocks ∧
      (p.newObject ok).1.freeBlockIndex = p.blocks.length ∧
      (p.newObject ok).1.nextId = p.nextId) ∧
    (∀ r, (p.newObject ok).2 = some r →
      ((p.newObject ok).1.blocks.getD (p.newObject ok).1.freeBlockIndex
        default).ident = r.1) := by
  obtain ⟨hepb, hne, hblocks, hcle, hpfull, hids, hbound⟩ := hw
  have hge := DynPool.scanIdx_ge p
  have hle := DynPool.scanIdx_le p hcle
  have hfull : ∀ j, j < p.scanIdx → (p.blocks.getD j default).numFree = 0 := by
    intro j hj
    by_cases hj2 : j < p.freeBlockIndex
    · exact hpfull j hj2
    · exact DynPool.scanIdx_full p j (by omega) hj
  by_cases hcase : p.scanIdx = p.blocks.length
  · cases ok with
    | false =>
      rw [DynPool.newObject_eq_fail p hcase]
      refine ⟨⟨hepb, hne, hblocks, ?_, ?_, hids, hbound⟩, ?_, rfl, hge, ?_, ?_⟩
      · show p.scanIdx ≤ p.blocks.length
        exact hle
      · exact hfull
      · show DynPool.allocSum { p with freeBlockIndex := p.scanIdx } =
          p.allocSum + _
        simp [DynPool.allocSum]
      · intro _
        exact ⟨rfl, hcase, rfl⟩
      · intro r hr
        simp at hr
    | true =>
      rw [DynPool.newObject_eq_add p hcase]
      have hqb : (DynPool.addBlock { p with freeBlockIndex := p.scanIdx }).blocks =
          p.blocks ++
            [(⟨p.entriesPerBlock, p.nextId, Block.create p.entriesPerBlock⟩ : BlockInfo)] := rfl
      have hqlen : (DynPool.addBlock
          { p with freeBlockIndex := p.scanIdx }).blocks.length =
          p.blocks.length + 1 := by
        rw [hqb, List.length_append, List.length_singleton]
      have hgetlast : (DynPool.addBlock
          { p with freeBlockIndex := p.scanIdx }).blocks.getD p.scanIdx default =
          (⟨p.entriesPerBlock, p.nextId, Block.create p.entriesPerBlock⟩ : BlockInfo) := by
        rw [hqb, hcase]
        have := getD_append_right p.blocks
          [(⟨p.entriesPerBlock, p.nextId, Block.create p.entriesPerBlock⟩ : BlockInfo)]
          0 default
        simpa using this
      have hserve := DynPool.serve_preserves
        (DynPool.addBlock { p with freeBlockIndex := p.scanIdx }) p.scanIdx
        hepb
        (by
          rw [hqb]
          intro info hin
          rcases List.mem_append.mp hin with hin1 | hin1
          · exact hblocks info hin1
          · rw [List.mem_singleton] at hin1
            subst hin1
            refine ⟨⟨List.range p.entriesPerBlock, Block.wfL_create _⟩,
              Block.cap_create _, ?_⟩
            show p.entriesPerBlock +
              (Block.create p.entriesPerBlock).numAllocations = p.entriesPerBlock
            rw [Block.numAllocations_create]
            omega)
        (by
          show ((p.blocks ++ _).map BlockInfo.ident).Nodup
          rw [List.map_append]
          refine List.Nodup.append hids (by simp) ?_
          intro a ha hb
          simp only [List.map_cons, List.map_nil, List.mem_singleton] at hb
          subst hb
          rcases List.mem_map.mp ha with ⟨info, hinfo, hid⟩
          have := hbound info hinfo
          omega)
        (by
          rw [hqb]
          intro info hin
          rcases List.mem_append.mp hin with hin1 | hin1
          · have := hbound info hin1
            show info.ident < p.nextId + 1
            omega
          · rw [List.mem_singleton] at hin1
            subst hin1
            show p.nextId < p.nextId + 1
            omega)
        (by rw [hqlen]; omega)
        (by
          intro j hj
          rw [hqb, getD_append_left _ _ _ _ (by omega)]
          exact hfull j hj)
        rfl
        (by
          rw [hgetlast]
          show p.entriesPerBlock ≠ 0
          omega)
      obtain ⟨hW, hsum, hsome, hepb', hnid, hcur, hval, hident⟩ := hserve
      have hasum : (DynPool.addBlock
          { p with freeBlockIndex := p.scanIdx }).allocSum = p.allocSum := by
        show ((p.blocks ++ _).map (fun info => info.block.numAllocations)).sum =
          p.allocSum
        rw [List.map_append, List.sum_append]
        simp [DynPool.allocSum, Block.numAllocations_create]
      refine ⟨hW, ?_, hepb', ?_, ?_, ?_⟩
      · rw [hsum, hasum, hval]
        simp
      · rw [hcur]
        exact hge
      · intro hnone
        rw [hval] at hnone
        simp at hnone
      · intro r hr
        rw [hval] at hr
        rw [hcur, hident, hgetlast]
        cases hr
        rw [hgetlast]
  · rw [DynPool.newObject_eq_serve p ok hcase]
    have hlt : p.scanIdx < p.blocks.length := by omega
    have hserve := DynPool.serve_preserves
      { p with freeBlockIndex := p.scanIdx } p.scanIdx
      hepb hblocks hids hbound hlt hfull rfl
      (DynPool.scanIdx_free p hlt)
    obtain ⟨hW, hsum, hsome, hepb', hnid, hcur, hval, hident⟩ := hserve
    have hasum : DynPool.allocSum { p with freeBlockIndex := p.scanIdx } =
        p.allocSum := rfl
    refine ⟨hW, ?_, hepb', ?_, ?_, ?_⟩
    · rw [hsum, hasum, hval]
      simp
    · rw [hcur]
      exact hge
    · intro hnone
      rw [hval] at hnone
      simp at hnone
    · intro r hr
      rw [hval] at hr
      rw [hcur, hident]
      cases hr
      rfl

/-! ### Preservation by `delete_object` and `delete_all` -/

/-- The updated `BlockInfo` record after `delete_object`: free count
incremented, block rolled back by one `delete_object`. -/
def BlockInfo.freed (info : BlockInfo) (s : Nat) : BlockInfo :=
  { info with numFree := info.numFree + 1,
              block := info.block.deleteObject (some s) }

theorem DynPool.deleteObject_eq {p : DynPool} {q : Nat × Nat} {j : Nat}
    (hfind : findBlock p.entriesPerBlock (some q) p.blocks = some j) :
    p.deleteObject (some q) =
      { p with blocks := p.blocks.set j ((p.blocks.getD j default).freed q.2),
               freeBlockIndex :=
                 if j < p.freeBlockIndex then j else p.freeBlockIndex } := by
  simp only [DynPool.deleteObject]
  rw [hfind]
  rfl

/-- `delete_object` of a valid pointer preserves the invariant and removes
exactly one live object; the cursor never moves past its old position. -/
theorem DynPool.deleteObject_step (p : DynPool) (q : Nat × Nat)
    (hw : DynPool.Wf p) (hv : p.validPtr q = true) :
    DynPool.Wf (p.deleteObject (some q)) ∧
    (p.deleteObject (some q)).allocSum + 1 = p.allocSum ∧
    (p.deleteObject (some q)).entriesPerBlock = p.entriesPerBlock ∧
    (p.deleteObject (some q)).nextId = p.nextId ∧
    (p.deleteObject (some q)).blocks.length = p.blocks.length := by
  obtain ⟨hepb, hne, hblocks, hcle, hpfull, hids, hbound⟩ := hw
  simp only [DynPool.validPtr] at hv
  cases hfind : findBlock p.entriesPerBlock (some q) p.blocks with
  | none => rw [hfind] at hv; simp at hv
  | some j =>
    rw [hfind] at hv
    have ho : (p.blocks.getD j default).block.indices.getD q.2 0 = q.2 := by
      simpa using hv
    obtain ⟨hjlt, hmatch⟩ := findBlock_some hfind
    have hs : q.2 < p.entriesPerBlock := by
      simp only [ptrMatch, Bool.and_eq_true, decide_eq_true_eq] at hmatch
      exact hmatch.2
    have hmem : p.blocks.getD j default ∈ p.blocks := getD_mem _ _ _ hjlt
    obtain ⟨⟨fl, hwfl⟩, hcap, hcount⟩ := hblocks _ hmem
    have hscap : q.2 < (p.blocks.getD j default).block.cap := by rw [hcap]; exact hs
    have hwfl' := Block.deleteObject_wfL hwfl hscap ho
    have hold := Block.numAllocations_add_length hwfl
    have hnew := Block.numAllocations_add_length hwfl'
    have hcapd : ((p.blocks.getD j default).block.deleteObject (some q.2)).cap =
        (p.blocks.getD j default).block.cap := rfl
    rw [hcapd] at hnew
    simp only [List.length_cons] at hnew
    have hpos := Block.numAllocations_pos hscap ho
    rw [DynPool.deleteObject_eq hfind]
    have hfreedF : ((p.blocks.getD j default).freed q.2).numFree =
        (p.blocks.getD j default).numFree + 1 := rfl
    have hfreedB : ((p.blocks.getD j default).freed q.2).block =
        (p.blocks.getD j default).block.deleteObject (some q.2) := rfl
    have hfreedI : ((p.blocks.getD j default).freed q.2).ident =
        (p.blocks.getD j default).ident := rfl
    have hnum : ((p.blocks.getD j default).freed q.2).block.numAllocations + 1 =
        (p.blocks.getD j default).block.numAllocations := by
      rw [hfreedB]
      omega
    have hlenset : (p.blocks.set j ((p.blocks.getD j default).freed q.2)).length =
        p.blocks.length := by simp
    refine ⟨⟨hepb, ?_, ?_, ?_, ?_, ?_, ?_⟩, ?_, rfl, rfl, hlenset⟩
    · show p.blocks.set j ((p.blocks.getD j default).freed q.2) ≠ []
      intro he
      rw [he] at hlenset
      simp only [List.length_nil] at hlenset
      omega
    · show ∀ info ∈ p.blocks.set j ((p.blocks.getD j default).freed q.2),
          info.block.Wf ∧ info.block.cap = p.entriesPerBlock ∧
          info.numFree + info.block.numAllocations = p.entriesPerBlock
      intro info hin
      rcases mem_of_mem_set _ _ _ _ hin with hold' | heq
      · exact hblocks _ hold'
      · subst heq
        refine ⟨⟨q.2 :: fl, by rw [hfreedB]; exact hwfl'⟩,
          by rw [hfreedB, hcapd]; exact hcap, ?_⟩
        rw [hfreedF]
        omega
    · show (if j < p.freeBlockIndex then j else p.freeBlockIndex) ≤
        (p.blocks.set j ((p.blocks.getD j default).freed q.2)).length
      rw [hlenset]
      split
      · omega
      · exact hcle
    · intro k hk
      have hk2 : k < (if j < p.freeBlockIndex then j else p.freeBlockIndex) := hk
      show ((p.blocks.set j ((p.blocks.getD j default).freed q.2)).getD
        k default).numFree = 0
      by_cases hjc : j < p.freeBlockIndex
      · rw [if_pos hjc] at hk2
        rw [getD_set_ne _ _ _ _ _ (by omega)]
        exact hpfull k (by omega)
      · rw [if_neg hjc] at hk2
        rw [getD_set_ne _ _ _ _ _ (by omega)]
        exact hpfull k hk2
    · show ((p.blocks.set j ((p.blocks.getD j default).freed q.2)).map
          BlockInfo.ident).Nodup
      rw [map_set_comm, hfreedI]
      have hgd : (p.blocks.map BlockInfo.ident).getD j 0 =
          (p.blocks.getD j default).ident :=
        getD_map_block _ _ _ _ hjlt
      rw [← hgd, set_getD_self _ _ _ (by rw [List.length_map]; exact hjlt)]
      exact hids
    · show ∀ info ∈ p.blocks.set j ((p.blocks.getD j default).freed q.2),
          info.ident < p.nextId
      intro info hin
      rcases mem_of_mem_set _ _ _ _ hin with hold' | heq
      · exact hbound _ hold'
      · subst heq
        show ((p.blocks.getD j default).freed q.2).ident < p.nextId
        rw [hfreedI]
        exact hbound _ hmem
    · show ((p.blocks.set j ((p.blocks.getD j default).freed q.2)).map
          (fun info => info.block.numAllocations)).sum + 1 =
        (p.blocks.map (fun info => info.block.numAllocations)).sum
      rw [map_set_comm]
      have hsum := sum_set_nat (p.blocks.map (fun info => info.block.numAllocations))
        j (((p.blocks.getD j default).freed q.2).block.numAllocations)
        (by rw [List.length_map]; exact hjlt)
      have hgd : (p.blocks.map (fun info => info.block.numAllocations)).getD j 0 =
          (p.blocks.getD j default).block.numAllocations :=
        getD_map_block _ _ _ _ hjlt
      rw [hgd] at hsum
      omega

/-- `delete_all` preserves the invariant and empties every block. -/
theorem DynPool.deleteAll_step (p : DynPool) (hw : DynPool.Wf p) :
    DynPool.Wf p.deleteAll ∧ p.deleteAll.allocSum = 0 ∧
    p.deleteAll.entriesPerBlock = p.entriesPerBlock ∧
    p.deleteAll.nextId = p.nextId ∧
    p.deleteAll.blocks.length = p.blocks.length := by
  obtain ⟨hepb, hne, hblocks, hcle, hpfull, hids, hbound⟩ := hw
  have hres : p.deleteAll.blocks = p.blocks.map (fun info =>
      { info with block := info.block.deleteAll,
                  numFree := p.entriesPerBlock }) := rfl
  refine ⟨⟨hepb, ?_, ?_, ?_, ?_, ?_, ?_⟩, ?_, rfl, rfl, by rw [hres]; simp⟩
  · rw [hres]
    intro he
    rw [List.map_eq_nil_iff] at he
    exact hne he
  · rw [hres]
    intro info hin
    rcases List.mem_map.mp hin with ⟨info0, hin0, heq⟩
    subst heq
    refine ⟨?_, ?_, ?_⟩
    · show (info0.block.deleteAll).Wf
      rw [Block.deleteAll_eq_create]
      exact ⟨List.range info0.block.cap, Block.wfL_create _⟩
    · show (info0.block.deleteAll).cap = p.entriesPerBlock
      rw [Block.deleteAll_eq_create, Block.cap_create]
      exact (hblocks _ hin0).2.1
    · show p.entriesPerBlock + (info0.block.deleteAll).numAllocations =
        p.entriesPerBlock
      rw [Block.deleteAll_eq_create, Block.numAllocations_create]
      omega
  · show (0:Nat) ≤ _
    omega
  · intro j hj
    simp only [DynPool.deleteAll] at hj
    omega
  · rw [hres, List.map_map]
    have : (BlockInfo.ident ∘ fun info =>
        ({ info with block := info.block.deleteAll,
                     numFree := p.entriesPerBlock } : BlockInfo)) =
        BlockInfo.ident := rfl
    rw [this]
    exact hids
  · rw [hres]
    intro info hin
    rcases List.mem_map.mp hin with ⟨info0, hin0, heq⟩
    subst heq
    show info0.ident < p.nextId
    exact hbound _ hin0
  · show (p.deleteAll.blocks.map (fun info => info.block.numAllocations)).sum = 0
    rw [hres, List.map_map]
    apply List.sum_eq_zero
    intro x hx
    rcases List.mem_map.mp hx with ⟨info0, hin0, heq⟩
    subst heq
    show (info0.block.deleteAll).numAllocations = 0
    rw [Block.deleteAll_eq_create, Block.numAllocations_create]

/-! ### The partition loop of `reclaim_memory` -/

theorem set_cons_succ {α : Type} (y : α) (l : List α) (n : Nat) (a : α) :
    (y :: l).set (n + 1) a = y :: l.set n a := rfl

theorem getD_append_at {α : Type} (l : List α) (y : α) (r : List α) (d : α) :
    (l ++ y :: r).getD l.length d = y := by
  have := getD_append_right l (y :: r) 0 d
  simpa using this

/-- Swapping the first empty slot (at `us.length`) with the used block just
found (at `us.length + 1 + mid.length`). -/
theorem swapL_mid (us mid tail : List BlockInfo) (e x : BlockInfo) :
    swapL (us ++ e :: (mid ++ x :: tail)) us.length (us.length + 1 + mid.length) =
      us ++ x :: (mid ++ e :: tail) := by
  have h1 : us.length + 1 + mid.length = us.length + (1 + mid.length) := by omega
  have h2 : 1 + mid.length = mid.length + 1 := by omega
  have hgj : (us ++ e :: (mid ++ x :: tail)).getD
      (us.length + 1 + mid.length) default = x := by
    rw [h1, getD_append_right, h2, List.getD_cons_succ]
    exact getD_append_at mid x tail default
  have hgi : (us ++ e :: (mid ++ x :: tail)).getD us.length default = e :=
    getD_append_at us e (mid ++ x :: tail) default
  simp only [swapL, hgj, hgi]
  have hstep1 : (us ++ e :: (mid ++ x :: tail)).set us.length x =
      us ++ x :: (mid ++ x :: tail) := by
    have := set_append_right us (e :: (mid ++ x :: tail)) 0 x
    simpa using this
  rw [hstep1, h1, set_append_right]
  congr 1
  show (x :: (mid ++ x :: tail)).set (1 + mid.length) e = x :: (mid ++ e :: tail)
  rw [h2, set_cons_succ]
  congr 1
  have := set_append_right mid (x :: tail) 0 e
  simpa using this

/-- Invariant of the partition loop after processing the first `k` indices:
the array is a permutation of the original with the processed prefix split
into used blocks followed by empty blocks, and the two cursor variables
follow the C++ code's conventions. -/
def RInv (epb : Nat) (blocks : List BlockInfo) (k : Nat) (s : RState) : Prop :=
  ∃ us es : List BlockInfo,
    s.arr = us ++ es ++ blocks.drop k ∧
    (us ++ es).Perm (blocks.take k) ∧
    (∀ x ∈ us, x.numFree ≠ epb) ∧
    (∀ x ∈ es, x.numFree = epb) ∧
    us.length + es.length = k ∧
    s.usedIdx = (if us.length = 0 then blocks.length else us.length - 1) ∧
    s.emptyIdx = (if es.length = 0 then blocks.length else us.length)

theorem rinv_zero (epb : Nat) (blocks : List BlockInfo) :
    RInv epb blocks 0 ⟨blocks, blocks.length, blocks.length⟩ := by
  refine ⟨[], [], by simp, by simp, by simp, by simp, by simp, by simp, by simp⟩

theorem rstep_inv (epb : Nat) (blocks : List BlockInfo) (k : Nat) (s : RState)
    (hk : k < blocks.length) (hinv : RInv epb blocks k s) :
    RInv epb blocks (k + 1) (rstep epb blocks.length s k) := by
  obtain ⟨us, es, harr, hperm, hus, hes, hlensum, hui, hei⟩ := hinv
  have hdrop : blocks.drop k = blocks.getD k default :: blocks.drop (k + 1) :=
    drop_eq_getD_cons _ _ _ hk
  have htake : blocks.take (k + 1) = blocks.take k ++ [blocks.getD k default] :=
    take_succ_getD _ _ default hk
  have hgetk : s.arr.getD k default = blocks.getD k default := by
    have h3 := getD_append_at (us ++ es) (blocks.getD k default)
      (blocks.drop (k + 1)) default
    rw [List.length_append, hlensum] at h3
    rw [harr, hdrop]
    exact h3
  by_cases hx : (blocks.getD k default).numFree ≠ epb
  · -- used block at position k
    have hcond : (s.arr.getD k default).numFree ≠ epb := by rw [hgetk]; exact hx
    have hc1 : (if (s.arr.getD k default).numFree ≠ epb then
        { s with usedIdx := k }
        else if k < s.emptyIdx then { s with emptyIdx := k } else s) =
        { s with usedIdx := k } := if_pos hcond
    cases es with
    | nil =>
      have huslen : us.length = k := by simpa using hlensum
      have heiN : s.emptyIdx = blocks.length := by rw [hei]; simp
      have hc2 : ¬(({ s with usedIdx := k } : RState).emptyIdx <
          ({ s with usedIdx := k } : RState).usedIdx ∧
          ({ s with usedIdx := k } : RState).usedIdx ≠ blocks.length) := by
        intro hcon
        have h1 : s.emptyIdx < k := hcon.1
        omega
      have hstep : rstep epb blocks.length s k = { s with usedIdx := k } := by
        simp only [rstep]
        rw [hc1, if_neg hc2]
      rw [hstep]
      refine ⟨us ++ [blocks.getD k default], [], ?_, ?_, ?_, ?_, ?_, ?_, ?_⟩
      · show s.arr = _
        rw [harr, hdrop]
        simp [List.append_assoc]
      · simp only [List.append_nil] at hperm ⊢
        rw [htake]
        exact hperm.append (List.Perm.refl _)
      · intro x hxin
        rcases List.mem_append.mp hxin with h1 | h1
        · exact hus x h1
        · rw [List.mem_singleton] at h1
          subst h1
          exact hx
      · intro x hxin
        simp at hxin
      · simp only [List.length_append, List.length_singleton, List.length_nil]
        omega
      · show k = _
        simp only [List.length_append, List.length_singleton]
        rw [if_neg (by omega)]
        omega
      · show s.emptyIdx = _
        simp only [List.length_nil, if_pos rfl]
        exact heiN
    | cons e es0 =>
      have hlus : us.length < k := by
        simp only [List.length_cons] at hlensum
        omega
      have heiU : s.emptyIdx = us.length := by rw [hei]; simp
      have hc2 : (({ s with usedIdx := k } : RState).emptyIdx <
          ({ s with usedIdx := k } : RState).usedIdx ∧
          ({ s with usedIdx := k } : RState).usedIdx ≠ blocks.length) := by
        constructor
        · show s.emptyIdx < k
          omega
        · show k ≠ blocks.length
          omega
      have hstep : rstep epb blocks.length s k =
          { arr := swapL s.arr s.emptyIdx k, usedIdx := s.emptyIdx,
            emptyIdx := s.emptyIdx + 1 } := by
        simp only [rstep]
        rw [hc1, if_pos hc2]
      rw [hstep]
      have hidx : k = us.length + 1 + es0.length := by
        simp only [List.length_cons] at hlensum
        omega
      have hswap : swapL s.arr s.emptyIdx k =
          us ++ blocks.getD k default :: (es0 ++ e :: blocks.drop (k + 1)) := by
        have hsm := swapL_mid us es0 (blocks.drop (k + 1)) e (blocks.getD k default)
        rw [← hidx] at hsm
        rw [harr, hdrop, heiU]
        have hshape : us ++ (e :: es0) ++
            (blocks.getD k default :: blocks.drop (k + 1)) =
            us ++ e :: (es0 ++ blocks.getD k default :: blocks.drop (k + 1)) := by
          simp
        rw [hshape]
        exact hsm
      refine ⟨us ++ [blocks.getD k default], es0 ++ [e], ?_, ?_, ?_, ?_, ?_, ?_, ?_⟩
      · show swapL s.arr s.emptyIdx k = _
        rw [hswap]
        simp [List.append_assoc]
      · rw [htake]
        have hmid : ((us ++ [blocks.getD k default]) ++ (es0 ++ [e])).Perm
            ((us ++ e :: es0) ++ [blocks.getD k default]) := by
          have h1 : (us ++ [blocks.getD k default]) ++ (es0 ++ [e]) =
              us ++ (blocks.getD k default :: (es0 ++ [e])) := by
            simp
          have h2 : (us ++ e :: es0) ++ [blocks.getD k default] =
              us ++ (e :: (es0 ++ [blocks.getD k default])) := by
            simp
          rw [h1, h2]
          refine List.Perm.append_left us ?_
          have hp1 : (blocks.getD k default :: (es0 ++ [e])).Perm
              (blocks.getD k default :: e :: es0) :=
            List.Perm.cons _ (List.perm_append_singleton e es0)
          have hp2 : (blocks.getD k default :: e :: es0).Perm
              (e :: blocks.getD k default :: es0) :=
            List.Perm.swap e (blocks.getD k default) es0
          have hp3 : (e :: blocks.getD k default :: es0).Perm
              (e :: (es0 ++ [blocks.getD k default])) :=
            List.Perm.cons _ (List.perm_append_singleton _ es0).symm
          exact (hp1.trans hp2).trans hp3
        exact hmid.trans (hperm.append (List.Perm.refl _))
      · intro x hxin
        rcases List.mem_append.mp hxin with h1 | h1
        · exact hus x h1
        · rw [List.mem_singleton] at h1
          subst h1
          exact hx
      · intro x hxin
        rcases List.mem_append.mp hxin with h1 | h1
        · exact hes x (List.mem_cons_of_mem _ h1)
        · rw [List.mem_singleton] at h1
          rw [h1]
          exact hes e (List.mem_cons_self _ _)
      · simp only [List.length_append, List.length_singleton, List.length_cons,
          List.length_nil] at hlensum ⊢
        omega
      · show s.emptyIdx = _
        rw [if_neg (by simp)]
        simp only [List.length_append, List.length_singleton]
        omega
      · show s.emptyIdx + 1 = _
        rw [if_neg (by simp)]
        simp only [List.length_append, List.length_singleton]
        omega
  · -- empty block at position k
    push_neg at hx
    have hcond : ¬ (s.arr.getD k default).numFree ≠ epb := by
      rw [hgetk]
      exact fun h => h hx
    cases es with
    | nil =>
      have huslen : us.length = k := by simpa using hlensum
      have heiN : s.emptyIdx = blocks.length := by rw [hei]; simp
      have hklt : k < s.emptyIdx := by omega
      have hc1 : (if (s.arr.getD k default).numFree ≠ epb then
          { s with usedIdx := k }
          else if k < s.emptyIdx then { s with emptyIdx := k } else s) =
          { s with emptyIdx := k } := by
        rw [if_neg hcond, if_pos hklt]
      have hc2 : ¬(({ s with emptyIdx := k } : RState).emptyIdx <
          ({ s with emptyIdx := k } : RState).usedIdx ∧
          ({ s with emptyIdx := k } : RState).usedIdx ≠ blocks.length) := by
        intro hcon
        have h1 : k < s.usedIdx := hcon.1
        have h2 : s.usedIdx ≠ blocks.length := hcon.2
        rw [hui] at h1 h2
        by_cases hz : us.length = 0
        · rw [if_pos hz] at h2
          exact h2 rfl
        · rw [if_neg hz] at h1
          omega
      have hstep : rstep epb blocks.length s k = { s with emptyIdx := k } := by
        simp only [rstep]
        rw [hc1, if_neg hc2]
      rw [hstep]
      refine ⟨us, [blocks.getD k default], ?_, ?_, hus, ?_, ?_, hui, ?_⟩
      · show s.arr = _
        rw [harr, hdrop]
        simp
      · simp only [List.append_nil] at hperm
        rw [htake]
        exact hperm.append (List.Perm.refl _)
      · intro x hxin
        rw [List.mem_singleton] at hxin
        subst hxin
        exact hx
      · simp only [List.length_singleton]
        omega
      · show k = _
        rw [if_neg (by simp)]
        omega
    | cons e es0 =>
      have hlus : us.length < k := by
        simp only [List.length_cons] at hlensum
        omega
      have heiU : s.emptyIdx = us.length := by rw [hei]; simp
      have hc1 : (if (s.arr.getD k default).numFree ≠ epb then
          { s with usedIdx := k }
          else if k < s.emptyIdx then { s with emptyIdx := k } else s) = s := by
        rw [if_neg hcond, if_neg (by omega)]
      have hc2 : ¬(s.emptyIdx < s.usedIdx ∧ s.usedIdx ≠ blocks.length) := by
        intro hcon
        have h1 := hcon.1
        have h2 := hcon.2
        rw [hui] at h1 h2
        rw [heiU] at h1
        by_cases hz : us.length = 0
        · rw [if_pos hz] at h2
          exact h2 rfl
        · rw [if_neg hz] at h1
          omega
      have hstep : rstep epb blocks.length s k = s := by
        simp only [rstep]
        rw [hc1, if_neg hc2]
      rw [hstep]
      refine ⟨us, (e :: es0) ++ [blocks.getD k default], ?_, ?_, hus, ?_, ?_, hui, ?_⟩
      · rw [harr, hdrop]
        simp
      · rw [htake, ← List.append_assoc]
        exact hperm.append (List.Perm.refl _)
      · intro x hxin
        rcases List.mem_append.mp hxin with h1 | h1
        · exact hes x h1
        · rw [List.mem_singleton] at h1
          subst h1
          exact hx
      · simp only [List.length_append, List.length_singleton, List.length_cons,
          List.length_nil] at hlensum ⊢
        omega
      · rw [heiU, if_neg (by simp)]

/-- The loop invariant holds after the whole partition scan. -/
theorem DynPool.reclaimScan_inv (p : DynPool) :
    RInv p.entriesPerBlock p.blocks p.blocks.length p.reclaimScan := by
  have key : ∀ k, k ≤ p.blocks.length →
      RInv p.entriesPerBlock p.blocks k
        ((List.range k).foldl (rstep p.entriesPerBlock p.blocks.length)
          ⟨p.blocks, p.blocks.length, p.blocks.length⟩) := by
    intro k
    induction k with
    | zero =>
      intro _
      exact rinv_zero _ _
    | succ n ih =>
      intro hle
      rw [List.range_succ, List.foldl_append]
      simp only [List.foldl_cons, List.foldl_nil]
      exact rstep_inv _ _ n _ (by omega) (ih (by omega))
  exact key p.blocks.length (Nat.le_refl _)

theorem firstFreeIdx_le (l : List BlockInfo) : firstFreeIdx l ≤ l.length := by
  induction l with
  | nil => simp [firstFreeIdx]
  | cons x xs ih =>
    simp only [firstFreeIdx, List.length_cons]
    split
    · omega
    · omega

theorem firstFreeIdx_full (l : List BlockInfo) :
    ∀ k, k < firstFreeIdx l → (l.getD k default).numFree = 0 := by
  induction l with
  | nil => intro k hk; simp [firstFreeIdx] at hk
  | cons x xs ih =>
    intro k hk
    simp only [firstFreeIdx] at hk
    by_cases hx : x.numFree ≠ 0
    · rw [if_pos hx] at hk
      omega
    · rw [if_neg hx] at hk
      push_neg at hx
      cases k with
      | zero => exact hx
      | succ n =>
        simp only [List.getD_cons_succ]
        exact ih n (by omega)

/-- `reclaim_memory` preserves the invariant and the total number of live
objects; the retained block count is the number of non-empty blocks (or one
if all blocks are empty), the retained and destroyed blocks together are a
permutation of the original blocks, and every destroyed block was fully
empty. -/
theorem DynPool.reclaim_step (p : DynPool) (hw : DynPool.Wf p) :
    DynPool.Wf p.reclaimMemory ∧
    p.reclaimMemory.allocSum = p.allocSum ∧
    p.reclaimMemory.entriesPerBlock = p.entriesPerBlock ∧
    p.reclaimMemory.nextId = p.nextId ∧
    p.reclaimMemory.blocks.length =
      max (p.blocks.countP
        (fun info => decide (info.numFree ≠ p.entriesPerBlock))) 1 ∧
    (p.reclaimMemory.blocks ++ p.reclaimDestroyed).Perm p.blocks ∧
    (∀ info ∈ p.reclaimDestroyed, info.numFree = p.entriesPerBlock) := by
  obtain ⟨hepb, hne, hblocks, hcle, hpfull, hids, hbound⟩ := hw
  obtain ⟨us, es, harr, hperm0, hus, hes, hlensum, hui, hei⟩ :=
    DynPool.reclaimScan_inv p
  rw [List.drop_length, List.append_nil] at harr
  rw [List.take_length] at hperm0
  have hNpos : 0 < p.blocks.length := List.length_pos.mpr hne
  have hmemblocks : ∀ x, x ∈ us ∨ x ∈ es → x ∈ p.blocks := by
    intro x hx
    exact hperm0.mem_iff.mp (List.mem_append.mpr hx)
  have hcount : p.blocks.countP
      (fun info => decide (info.numFree ≠ p.entriesPerBlock)) = us.length := by
    rw [← hperm0.countP_eq, List.countP_append]
    have h1 : us.countP (fun info => decide (info.numFree ≠ p.entriesPerBlock)) =
        us.length := by
      rw [List.countP_eq_length]
      intro a ha
      simpa using hus a ha
    have h2 : es.countP (fun info => decide (info.numFree ≠ p.entriesPerBlock)) =
        0 := by
      rw [List.countP_eq_zero]
      intro a ha
      simpa using hes a ha
    rw [h1, h2]
    omega
  have heszero : ∀ x ∈ es, x.block.numAllocations = 0 := by
    intro x hx
    obtain ⟨-, -, hsum⟩ := hblocks x (hmemblocks x (Or.inr hx))
    have := hes x hx
    omega
  have hsumsplit : p.allocSum =
      ((us.map (fun info => info.block.numAllocations)).sum +
       (es.map (fun info => info.block.numAllocations)).sum) := by
    have := (hperm0.map (fun info => info.block.numAllocations)).sum_eq
    rw [List.map_append, List.sum_append] at this
    exact (this.symm : _)
  have hessum : (es.map (fun info => info.block.numAllocations)).sum = 0 := by
    apply List.sum_eq_zero
    intro x hx
    rcases List.mem_map.mp hx with ⟨info, hinfo, heq⟩
    rw [← heq]
    exact heszero info hinfo
  by_cases hU : us.length = 0
  · -- all blocks empty: keep one block
    have husnil : us = [] := List.length_eq_zero.mp hU
    subst husnil
    simp only [List.nil_append] at harr hperm0
    have huiN : p.reclaimScan.usedIdx = p.blocks.length := by
      rw [hui]
      simp
    have hesne : es ≠ [] := by
      intro he
      rw [he] at hperm0
      have := hperm0.length_eq
      simp at this
      omega
    obtain ⟨e, es2, hesc⟩ : ∃ e es2, es = e :: es2 := by
      cases es with
      | nil => exact absurd rfl hesne
      | cons a l => exact ⟨a, l, rfl⟩
    subst hesc
    have hblocksre : p.reclaimMemory.blocks = [e] := by
      show p.reclaimScan.arr.take _ = [e]
      rw [harr, huiN, if_pos rfl]
      rfl
    have hdest : p.reclaimDestroyed = es2 := by
      show p.reclaimScan.arr.drop _ = es2
      rw [harr, huiN, if_pos rfl]
      rfl
    have hcur : p.reclaimMemory.freeBlockIndex = firstFreeIdx [e] := by
      show firstFreeIdx (p.reclaimScan.arr.take _) = _
      rw [harr, huiN, if_pos rfl]
      rfl
    have hem : e ∈ p.blocks := hmemblocks e (Or.inr (List.mem_cons_self _ _))
    have hecur : firstFreeIdx [e] = 0 := by
      have := hes e (List.mem_cons_self _ _)
      simp only [firstFreeIdx]
      rw [if_pos (by omega)]
    refine ⟨⟨hepb, ?_, ?_, ?_, ?_, ?_, ?_⟩, ?_, rfl, rfl, ?_, ?_, ?_⟩
    · rw [hblocksre]
      simp
    · rw [hblocksre]
      intro info hin
      rw [List.mem_singleton] at hin
      subst hin
      exact hblocks info hem
    · show p.reclaimMemory.freeBlockIndex ≤ _
      rw [hcur, hecur, hblocksre]
      simp
    · intro j hj
      rw [hcur, hecur] at hj
      omega
    · rw [hblocksre]
      simp
    · rw [hblocksre]
      intro info hin
      rw [List.mem_singleton] at hin
      subst hin
      exact hbound info hem
    · show (p.reclaimMemory.blocks.map (fun info => info.block.numAllocations)).sum
        = p.allocSum
      rw [hblocksre, hsumsplit, hessum]
      simp only [List.map_cons, List.map_nil, List.sum_cons, List.sum_nil]
      have he0 := heszero e (List.mem_cons_self _ _)
      omega
    · rw [hblocksre, hcount, hU]
      simp
    · rw [hblocksre, hdest]
      exact hperm0
    · rw [hdest]
      intro info hin
      exact hes info (List.mem_cons_of_mem _ hin)
  · -- at least one used block: retain exactly the used prefix
    have husne : 0 < us.length := by omega
    have huiU : p.reclaimScan.usedIdx = us.length - 1 := by
      rw [hui, if_neg hU]
    have hules : us.length ≤ p.blocks.length := by omega
    have hnotN : ¬ p.reclaimScan.usedIdx = p.blocks.length := by
      rw [huiU]
      omega
    have hu1 : (if p.reclaimScan.usedIdx = p.blocks.length then 0
        else p.reclaimScan.usedIdx) + 1 = us.length := by
      rw [if_neg hnotN, huiU]
      omega
    have hblocksre : p.reclaimMemory.blocks = us := by
      show p.reclaimScan.arr.take _ = us
      rw [harr, hu1]
      exact List.take_left us es
    have hdest : p.reclaimDestroyed = es := by
      show p.reclaimScan.arr.drop _ = es
      rw [harr, hu1]
      exact List.drop_left us es
    have hcur : p.reclaimMemory.freeBlockIndex = firstFreeIdx us := by
      show firstFreeIdx (p.reclaimScan.arr.take _) = _
      rw [harr, hu1, List.take_left]
    refine ⟨⟨hepb, ?_, ?_, ?_, ?_, ?_, ?_⟩, ?_, rfl, rfl, ?_, ?_, ?_⟩
    · rw [hblocksre]
      intro he
      rw [he] at husne
      simp at husne
    · rw [hblocksre]
      intro info hin
      exact hblocks info (hmemblocks info (Or.inl hin))
    · show p.reclaimMemory.freeBlockIndex ≤ _
      rw [hcur, hblocksre]
      exact firstFreeIdx_le us
    · intro j hj
      rw [hcur] at hj
      have := firstFreeIdx_full us j hj
      rw [hblocksre]
      exact this
    · rw [hblocksre]
      have hnall : (List.map BlockInfo.ident (us ++ es)).Nodup :=
        ((hperm0.map BlockInfo.ident).nodup_iff).mpr hids
      rw [List.map_append] at hnall
      exact (List.nodup_append.mp hnall).1
    · rw [hblocksre]
      intro info hin
      exact hbound info (hmemblocks info (Or.inl hin))
    · show (p.reclaimMemory.blocks.map (fun info => info.block.numAllocations)).sum
        = p.allocSum
      rw [hblocksre, hsumsplit, hessum]
      omega
    · rw [hblocksre, hcount]
      have := Nat.max_eq_left (show 1 ≤ us.length by omega)
      omega
    · rw [hblocksre, hdest]
      exact hperm0
    · rw [hdest]
      exact hes

/-! ### Master invariant for reachable dynamic pools -/

/-- Every reachable pool satisfies the invariant, and its total number of
live objects equals the outstanding count of the call sequence. -/
theorem DynPool.reach_wf_allocSum {p : DynPool} {n : Nat} (h : DynPool.Reach p n) :
    DynPool.Wf p ∧ p.allocSum = n := by
  induction h with
  | create epb hpos => exact DynPool.wf_create epb hpos
  | @newOk p0 n0 p' r ok hr heq ih =>
    obtain ⟨hW, hsum, -, -, -, -⟩ := DynPool.newObject_step p0 ok ih.1
    rw [heq] at hW hsum
    simp only [Option.isSome_some, if_pos] at hsum
    exact ⟨hW, by rw [hsum, ih.2]⟩
  | @newFail p0 n0 p' ok hr heq ih =>
    obtain ⟨hW, hsum, -, -, -, -⟩ := DynPool.newObject_step p0 ok ih.1
    rw [heq] at hW hsum
    simp only [Option.isSome_none, Bool.false_eq_true, if_neg] at hsum
    simp at hsum
    exact ⟨hW, by rw [hsum, ih.2]⟩
  | @del p0 n0 q hr hv ih =>
    obtain ⟨hW, hsum, -, -, -⟩ := DynPool.deleteObject_step p0 q ih.1 hv
    refine ⟨hW, ?_⟩
    rw [ih.2] at hsum
    omega
  | @delAll p0 n0 hr ih =>
    obtain ⟨hW, hsum, -, -, -⟩ := DynPool.deleteAll_step p0 ih.1
    exact ⟨hW, hsum⟩
  | @reclaim p0 n0 hr ih =>
    obtain ⟨hW, hsum, -, -, -, -, -⟩ := DynPool.reclaim_step p0 ih.1
    exact ⟨hW, by rw [hsum, ih.2]⟩

/-! ### `for_each` lemmas -/

theorem Block.mem_forEachList (b : Block) (i : Nat) :
    i ∈ b.forEachList ↔ i < b.cap ∧ b.indices.getD i 0 = i := by
  simp [Block.forEachList, List.mem_filter, List.mem_range]

theorem Block.forEachList_pairwise (b : Block) :
    b.forEachList.Pairwise (· < ·) :=
  (List.pairwise_lt_range b.cap).sublist (List.filter_sublist _)

/-- The visited pairs of `DynamicObjectPool::for_each`, computed over any
block list (generalisation of `DynPool.forEachList` for induction). -/
def dynFE (epb : Nat) (l : List BlockInfo) : List (Nat × Nat) :=
  l.foldr
    (fun info acc =>
      (if info.numFree < epb then
        info.block.forEachList.map (fun s => (info.ident, s))
      else []) ++ acc)
    []

theorem DynPool.forEachList_eq_dynFE (p : DynPool) :
    p.forEachList = dynFE p.entriesPerBlock p.blocks := rfl

theorem dynFE_fst_mem (epb : Nat) (l : List BlockInfo) (a : Nat × Nat)
    (h : a ∈ dynFE epb l) : a.1 ∈ l.map BlockInfo.ident := by
  induction l with
  | nil => simp [dynFE] at h
  | cons x xs ih =>
    simp only [dynFE, List.foldr_cons] at h
    rcases List.mem_append.mp h with h1 | h1
    · by_cases hc : x.numFree < epb
      · rw [if_pos hc] at h1
        rcases List.mem_map.mp h1 with ⟨s, -, heq⟩
        subst heq
        simp
      · rw [if_neg hc] at h1
        simp at h1
    · simp only [List.map_cons, List.mem_cons]
      exact Or.inr (ih h1)

theorem dynFE_mem (epb : Nat) (l : List BlockInfo)
    (hl : ∀ info ∈ l, info.block.cap = epb ∧
      info.numFree + info.block.numAllocations = epb) (a : Nat × Nat) :
    a ∈ dynFE epb l ↔
      ∃ info, info ∈ l ∧ info.ident = a.1 ∧ a.2 < info.block.cap ∧
        info.block.indices.getD a.2 0 = a.2 := by
  induction l with
  | nil => simp [dynFE]
  | cons x xs ih =>
    have hx := hl x (List.mem_cons_self _ _)
    have ihs := ih (fun info hin => hl info (List.mem_cons_of_mem _ hin))
    simp only [dynFE, List.foldr_cons]
    constructor
    · intro h
      rcases List.mem_append.mp h with h1 | h1
      · by_cases hc : x.numFree < epb
        · rw [if_pos hc] at h1
          rcases List.mem_map.mp h1 with ⟨s, hs, heq⟩
          rw [Block.mem_forEachList] at hs
          refine ⟨x, List.mem_cons_self _ _, ?_, ?_, ?_⟩
          · rw [← heq]
          · rw [← heq]; exact hs.1
          · rw [← heq]; exact hs.2
        · rw [if_neg hc] at h1
          simp at h1
      · rcases (ihs).mp h1 with ⟨info, hin, h2, h3, h4⟩
        exact ⟨info, List.mem_cons_of_mem _ hin, h2, h3, h4⟩
    · rintro ⟨info, hin, h2, h3, h4⟩
      rcases List.mem_cons.mp hin with hin1 | hin1
      · subst hin1
        apply List.mem_append.mpr
        left
        have hocc : 0 < info.block.numAllocations :=
          Block.numAllocations_pos h3 h4
        have hc : info.numFree < epb := by omega
        rw [if_pos hc]
        apply List.mem_map.mpr
        refine ⟨a.2, ?_, ?_⟩
        · rw [Block.mem_forEachList]
          exact ⟨h3, h4⟩
        · rw [h2]
      · apply List.mem_append.mpr
        right
        exact (ihs).mpr ⟨info, hin1, h2, h3, h4⟩

theorem dynFE_nodup (epb : Nat) (l : List BlockInfo)
    (hids : (l.map BlockInfo.ident).Nodup) : (dynFE epb l).Nodup := by
  induction l with
  | nil => simp [dynFE]
  | cons x xs ih =>
    simp only [List.map_cons, List.nodup_cons] at hids
    have ihn := ih hids.2
    simp only [dynFE, List.foldr_cons]
    apply List.Nodup.append
    · by_cases hc : x.numFree < epb
      · rw [if_pos hc]
        apply List.Nodup.map
        · intro s1 s2 hss
          exact (Prod.mk.injEq _ _ _ _).mp hss |>.2
        · exact (Block.forEachList_pairwise x.block).nodup
      · rw [if_neg hc]
        exact List.nodup_nil
    · exact ihn
    · intro a ha hb
      have hfst : a.1 ∈ xs.map BlockInfo.ident := dynFE_fst_mem epb xs a hb
      by_cases hc : x.numFree < epb
      · rw [if_pos hc] at ha
        rcases List.mem_map.mp ha with ⟨s, -, heq⟩
        have : a.1 = x.ident := by rw [← heq]
        rw [this] at hfst
        exact hids.1 hfst
      · rw [if_neg hc] at ha
        simp at ha

/-! ### Auxiliary definitions for the claims -/

theorem countP_congr_mem (l : List BlockInfo) (f g : BlockInfo → Bool)
    (h : ∀ a ∈ l, f a = g a) : l.countP f = l.countP g := by
  induction l with
  | nil => rfl
  | cons x xs ih =>
    rw [List.countP_cons, List.countP_cons,
      ih (fun a ha => h a (List.mem_cons_of_mem _ ha)),
      h x (List.mem_cons_self _ _)]

/-- The spec's description of `get_stats().allocation_count`: "sum of
`entries_per_block - free_count` over non-empty blocks". -/
def DynPool.statsSpecSum (p : DynPool) : Nat :=
  ((p.blocks.filter (fun info => decide (info.numFree < p.entriesPerBlock))).map
    (fun info => p.entriesPerBlock - info.numFree)).sum

theorem statsSpecSum_aux (epb : Nat) (l : List BlockInfo)
    (hl : ∀ info ∈ l, info.numFree + info.block.numAllocations = epb) :
    ((l.filter (fun info => decide (info.numFree < epb))).map
      (fun info => epb - info.numFree)).sum =
    (l.map (fun info => info.block.numAllocations)).sum := by
  induction l with
  | nil => rfl
  | cons x xs ih =>
    have hx := hl x (List.mem_cons_self _ _)
    have ihs := ih (fun info hin => hl info (List.mem_cons_of_mem _ hin))
    by_cases hc : x.numFree < epb
    · rw [List.filter_cons_of_pos (by simpa using hc)]
      simp only [List.map_cons, List.sum_cons]
      rw [ihs]
      omega
    · rw [List.filter_cons_of_neg (by simpa using hc)]
      simp only [List.map_cons, List.sum_cons]
      rw [ihs]
      omega

theorem DynPool.statsSpecSum_eq (p : DynPool) (hw : DynPool.Wf p) :
    p.statsSpecSum = p.allocSum := by
  obtain ⟨-, -, hblocks, -⟩ := hw
  exact statsSpecSum_aux p.entriesPerBlock p.blocks
    (fun info hin => (hblocks info hin).2.2)

theorem DynPool.calcStats_fst (p : DynPool) : p.calcStats.1 = p.blocks.length :=
  rfl

/-- The spec's concrete scenario: `DynamicPool(32)` after 128 allocations.
The four blocks receive payload addresses (`ident`) 0, 1, 2 and 3, so the
objects in global slots `[32,96)` are the pointers `(1, s)` and `(2, s)`
for `s < 32`. -/
def scenarioAlloc : DynPool :=
  (List.range 128).foldl (fun p _ => (p.newObject true).1) (DynPool.create 32)

/-- The scenario pool after freeing the objects in global slots `[32,96)`
(all of blocks 1 and 2). -/
def scenarioFreed : DynPool :=
  (List.range 32).foldl (fun p s => p.deleteObject (some (2, s)))
    ((List.range 32).foldl (fun p s => p.deleteObject (some (1, s))) scenarioAlloc)

/-- A reachability step for `new_object` with either outcome. -/
theorem DynPool.Reach.newStep {p : DynPool} {n : Nat} (h : DynPool.Reach p n)
    (ok : Bool) :
    DynPool.Reach (p.newObject ok).1
      (n + if (p.newObject ok).2.isSome then 1 else 0) := by
  have heta : p.newObject ok = ((p.newObject ok).1, (p.newObject ok).2) := rfl
  cases hres : (p.newObject ok).2 with
  | none =>
    have hcount : (n + if (none : Option (Nat × Nat)).isSome = true then 1 else 0)
        = n := by simp
    rw [hcount]
    exact DynPool.Reach.newFail ok h (by rw [heta, hres])
  | some r =>
    have hcount : (n + if (some r).isSome = true then 1 else 0) = n + 1 := by simp
    rw [hcount]
    exact DynPool.Reach.newOk ok h (by rw [heta, hres])

/-- `DynamicPool(1)` with its single slot allocated: the smallest state from
which a failing `new_object` (all blocks full, allocation failure) is
observable. -/
def fullPool1 : DynPool := ((DynPool.create 1).newObject true).1

/-- A reachable `DynamicPool(1)` state with four blocks in which block 0 has
free space and blocks 1, 2 are full while block 3 is free: obtained by four
allocations, freeing the objects of blocks 3 and 0, then allocating once
(which refills block 0 and leaves the cursor at 0). -/
def cursorTracePool : DynPool :=
  ((((((((DynPool.create 1).newObject true).1.newObject true).1.newObject
      true).1.newObject true).1.deleteObject (some (3, 0))).deleteObject
      (some (0, 0))).newObject true).1

/-- `DynamicPool(1)` after one allocation and `reclaim_memory()`: the
retained block is full, so the recomputed cursor equals the block count. -/
def assertBreakPool : DynPool := ((DynPool.create 1).newObject true).1.reclaimMemory

set_option maxRecDepth 20000

/-! ### The claims -/

/-- C1: For every `ObjectPoolBlock` state reachable by any sequence of
`create` / `new_object` / `delete_object` / `delete_all` (deleting only
currently allocated slots), the free list followed from `free_head_index_`
visits every free slot exactly once and terminates at the sentinel
`entries_per_block_`, and the slots not reachable via the free list are
exactly the occupied ones (`indices[i] == i`). -/
theorem c1_block_free_list_invariant (n : Nat) (b : Block) (m : Nat)
    (h : Block.ReachN n b m) : Block.Wf b := by
  obtain ⟨fl, hw, -, -⟩ := Block.reach_master h
  exact ⟨fl, hw⟩

theorem c1_block_free_list_invariant_witness :
    Block.ReachN 2 (Block.create 2) 0 ∧ Block.Wf (Block.create 2) :=
  ⟨Block.ReachN.create 2,
   c1_block_free_list_invariant 2 (Block.create 2) 0 (Block.ReachN.create 2)⟩

/-- C2: after every call of a valid sequence, `calc_stats().num_allocations`
equals the number of outstanding objects, for `FixedObjectPool` and for
`DynamicObjectPool`; for the latter it also equals the sum of
`entries_per_block - free_count` over the non-empty blocks. -/
theorem c2_stats_equal_outstanding (n0 : Nat) (f : FixedPool) (m : Nat)
    (hf : FixedPool.ReachN n0 f m) (p : DynPool) (k : Nat)
    (hp : DynPool.Reach p k) :
    (f.calcStats).2 = m ∧ (p.calcStats).2 = k ∧
    (p.calcStats).2 = p.statsSpecSum := by
  obtain ⟨fl, hw, hcap, hcount⟩ := Block.reach_master hf
  have hnum := Block.numAllocations_add_length hw
  obtain ⟨hW, hsum⟩ := DynPool.reach_wf_allocSum hp
  have h2 := DynPool.calcStats_snd_eq_allocSum p hW
  have h3 := DynPool.statsSpecSum_eq p hW
  refine ⟨?_, by rw [h2, hsum], by rw [h2, h3]⟩
  show f.block.numAllocations = m
  omega

theorem c2_stats_equal_outstanding_witness :
    FixedPool.ReachN 2 (FixedPool.create 2) 0 ∧
    DynPool.Reach (DynPool.create 2) 0 ∧
    ((FixedPool.create 2).calcStats.2 = 0 ∧
     (DynPool.create 2).calcStats.2 = 0 ∧
     (DynPool.create 2).calcStats.2 = (DynPool.create 2).statsSpecSum) :=
  ⟨Block.ReachN.create 2, DynPool.Reach.create 2 (by decide),
   c2_stats_equal_outstanding 2 (FixedPool.create 2) 0 (Block.ReachN.create 2)
     (DynPool.create 2) 0 (DynPool.Reach.create 2 (by decide))⟩

/-- C3: after `reclaim_memory()` the block count is the number of blocks
holding at least one live object (or 1 if none — never 0), the destroyed
blocks are exactly the fully-empty ones beyond the retained blocks (the
retained and destroyed blocks together being a permutation of the previous
blocks), and `num_allocations` is unchanged; in particular, in the spec's
concrete scenario (`DynamicPool(32)`, allocate 128, free slots `[32,96)`)
the stats go from `(4, 64)` to `(2, 64)`. -/
theorem c3_reclaim_memory (p : DynPool) (n : Nat) (h : DynPool.Reach p n) :
    p.reclaimMemory.calcStats.1 =
      max (p.blocks.countP
        (fun info => decide (info.block.numAllocations ≠ 0))) 1 ∧
    1 ≤ p.reclaimMemory.calcStats.1 ∧
    (p.reclaimMemory.blocks ++ p.reclaimDestroyed).Perm p.blocks ∧
    (∀ info ∈ p.reclaimDestroyed, info.block.numAllocations = 0) ∧
    p.reclaimMemory.calcStats.2 = p.calcStats.2 ∧
    (scenarioFreed.calcStats = (4, 64) ∧
     scenarioFreed.reclaimMemory.calcStats = (2, 64)) := by
  obtain ⟨hW, -⟩ := DynPool.reach_wf_allocSum h
  obtain ⟨hW', hsum, -, -, hlen, hperm, hdest⟩ := DynPool.reclaim_step p hW
  have hblocks := hW.2.2.1
  have hcong : p.blocks.countP
      (fun info => decide (info.numFree ≠ p.entriesPerBlock)) =
      p.blocks.countP (fun info => decide (info.block.numAllocations ≠ 0)) := by
    apply countP_congr_mem
    intro a ha
    obtain ⟨-, -, hsum2⟩ := hblocks a ha
    by_cases hc : a.numFree = p.entriesPerBlock
    · have : a.block.numAllocations = 0 := by omega
      simp [hc, this]
    · have : a.block.numAllocations ≠ 0 := by omega
      simp [hc, this]
  refine ⟨?_, ?_, hperm, ?_, ?_, by decide, by decide⟩
  · rw [DynPool.calcStats_fst, hlen, hcong]
  · rw [DynPool.calcStats_fst, hlen]
    omega
  · intro info hin
    have hmem : info ∈ p.blocks := by
      refine hperm.mem_iff.mp ?_
      exact List.mem_append.mpr (Or.inr hin)
    obtain ⟨-, -, hsum2⟩ := hblocks info hmem
    have := hdest info hin
    omega
  · rw [DynPool.calcStats_snd_eq_allocSum _ hW',
      DynPool.calcStats_snd_eq_allocSum _ hW, hsum]

theorem c3_reclaim_memory_witness :
    DynPool.Reach (DynPool.create 1) 0 ∧
    ((DynPool.create 1).reclaimMemory.calcStats.1 =
      max ((DynPool.create 1).blocks.countP
        (fun info => decide (info.block.numAllocations ≠ 0))) 1 ∧
    1 ≤ (DynPool.create 1).reclaimMemory.calcStats.1 ∧
    ((DynPool.create 1).reclaimMemory.blocks ++
      (DynPool.create 1).reclaimDestroyed).Perm (DynPool.create 1).blocks ∧
    (∀ info ∈ (DynPool.create 1).reclaimDestroyed,
      info.block.numAllocations = 0) ∧
    (DynPool.create 1).reclaimMemory.calcStats.2 =
      (DynPool.create 1).calcStats.2 ∧
    (scenarioFreed.calcStats = (4, 64) ∧
     scenarioFreed.reclaimMemory.calcStats = (2, 64))) :=
  ⟨DynPool.Reach.create 1 (by decide),
   c3_reclaim_memory (DynPool.create 1) 0 (DynPool.Reach.create 1 (by decide))⟩

/-- C4: a `FixedObjectPool` constructed with capacity `n` accepts exactly
`n` concurrent live allocations: with fewer than `n` live objects,
`new_object` returns a non-null pointer; with all `n` live, `new_object`
returns null and leaves the pool unmodified. -/
theorem c4_fixed_pool_capacity (n : Nat) (f : FixedPool) (m : Nat)
    (h : FixedPool.ReachN n f m) :
    f.block.cap = n ∧
    (m < n → (f.newObject).2.isSome = true) ∧
    (m = n → f.newObject = (f, none)) := by
  obtain ⟨fl, hw, hcap, hcount⟩ := Block.reach_master h
  refine ⟨hcap, ?_, ?_⟩
  · intro hm
    have hfl : fl ≠ [] := by
      intro he
      subst he
      simp only [List.length_nil] at hcount
      omega
    obtain ⟨h0, rest, hc⟩ : ∃ h0 rest, fl = h0 :: rest := by
      cases fl with
      | nil => exact absurd rfl hfl
      | cons a l => exact ⟨a, l, rfl⟩
    subst hc
    obtain ⟨hsome, -, -⟩ := Block.newObject_cons hw
    show (f.block.newObject).2.isSome = true
    rw [hsome]
    rfl
  · intro hm
    have hfl : fl = [] := by
      cases fl with
      | nil => rfl
      | cons a l =>
        simp only [List.length_cons] at hcount
        omega
    subst hfl
    have hres := Block.newObject_nil hw
    show (⟨(f.block.newObject).1⟩, (f.block.newObject).2) = (f, none)
    rw [hres]

theorem c4_fixed_pool_capacity_witness :
    FixedPool.ReachN 2 (FixedPool.create 2) 0 ∧
    ((FixedPool.create 2).block.cap = 2 ∧
     (0 < 2 → ((FixedPool.create 2).newObject).2.isSome = true) ∧
     (0 = 2 → (FixedPool.create 2).newObject = (FixedPool.create 2, none))) :=
  ⟨Block.ReachN.create 2,
   c4_fixed_pool_capacity 2 (FixedPool.create 2) 0 (Block.ReachN.create 2)⟩

/-- C5: `for_each` invokes the visitor exactly once for each occupied slot
and never for a free slot; a block's occupied slots are visited in
ascending slot-index order, and a `DynamicObjectPool` visits its blocks in
block-index order (skipping fully-empty blocks) without missing any
occupied slot. -/
theorem c5_for_each_visits (b : Block) (p : DynPool) (n : Nat)
    (h : DynPool.Reach p n) :
    (∀ i, i ∈ b.forEachList ↔ i < b.cap ∧ b.indices.getD i 0 = i) ∧
    b.forEachList.Pairwise (· < ·) ∧
    (∀ a : Nat × Nat, a ∈ p.forEachList ↔
      ∃ info, info ∈ p.blocks ∧ info.ident = a.1 ∧ a.2 < info.block.cap ∧
        info.block.indices.getD a.2 0 = a.2) ∧
    p.forEachList.Nodup := by
  obtain ⟨hW, -⟩ := DynPool.reach_wf_allocSum h
  refine ⟨Block.mem_forEachList b, Block.forEachList_pairwise b, ?_, ?_⟩
  · intro a
    rw [DynPool.forEachList_eq_dynFE]
    exact dynFE_mem p.entriesPerBlock p.blocks
      (fun info hin => ⟨(hW.2.2.1 info hin).2.1, (hW.2.2.1 info hin).2.2⟩) a
  · rw [DynPool.forEachList_eq_dynFE]
    exact dynFE_nodup p.entriesPerBlock p.blocks hW.2.2.2.2.2.1

theorem c5_for_each_visits_witness :
    DynPool.Reach (DynPool.create 2) 0 ∧
    ((∀ i, i ∈ (Block.create 2).forEachList ↔
        i < (Block.create 2).cap ∧ (Block.create 2).indices.getD i 0 = i) ∧
     (Block.create 2).forEachList.Pairwise (· < ·) ∧
     (∀ a : Nat × Nat, a ∈ (DynPool.create 2).forEachList ↔
       ∃ info, info ∈ (DynPool.create 2).blocks ∧ info.ident = a.1 ∧
         a.2 < info.block.cap ∧ info.block.indices.getD a.2 0 = a.2) ∧
     (DynPool.create 2).forEachList.Nodup) :=
  ⟨DynPool.Reach.create 2 (by decide),
   c5_for_each_visits (Block.create 2) (DynPool.create 2) 0
     (DynPool.Reach.create 2 (by decide))⟩

/-- C6 counterexample: from the reachable state `DynamicPool(1)` with its
single block full, a `new_object` whose block creation fails returns null
but leaves `free_block_index_` different from its prior value (0 before,
1 = `num_blocks_` after), so the pool is *not* left in exactly its prior
state. -/
theorem c6_counterexample :
    DynPool.Reach fullPool1 1 ∧
    (fullPool1.newObject false).2 = none ∧
    fullPool1.freeBlockIndex = 0 ∧
    (fullPool1.newObject false).1.freeBlockIndex = 1 := by
  refine ⟨?_, by decide, by decide, by decide⟩
  exact DynPool.Reach.newOk true (DynPool.Reach.create 1 (by decide)) rfl

/-- C6 (amended): if block creation fails during
`DynamicObjectPool::new_object` on a reachable pool, the call returns null
and the block list, block count, per-block free counts and `next` id are
unchanged — but `free_block_index_` is set to the block count. -/
theorem c6_alloc_failure_state (p : DynPool) (n : Nat) (h : DynPool.Reach p n)
    (hf : (p.newObject false).2 = none) :
    (p.newObject false).1.blocks = p.blocks ∧
    (p.newObject false).1.entriesPerBlock = p.entriesPerBlock ∧
    (p.newObject false).1.nextId = p.nextId ∧
    (p.newObject false).1.freeBlockIndex = p.blocks.length := by
  obtain ⟨hW, -⟩ := DynPool.reach_wf_allocSum h
  obtain ⟨-, -, hepb, -, hnone, -⟩ := DynPool.newObject_step p false hW
  obtain ⟨h1, h2, h3⟩ := hnone hf
  exact ⟨h1, hepb, h3, h2⟩

theorem c6_alloc_failure_state_witness :
    DynPool.Reach fullPool1 1 ∧ (fullPool1.newObject false).2 = none ∧
    ((fullPool1.newObject false).1.blocks = fullPool1.blocks ∧
     (fullPool1.newObject false).1.entriesPerBlock = fullPool1.entriesPerBlock ∧
     (fullPool1.newObject false).1.nextId = fullPool1.nextId ∧
     (fullPool1.newObject false).1.freeBlockIndex = fullPool1.blocks.length) := by
  have hr : DynPool.Reach fullPool1 1 :=
    DynPool.Reach.newOk true (DynPool.Reach.create 1 (by decide)) rfl
  exact ⟨hr, by decide, c6_alloc_failure_state fullPool1 1 hr (by decide)⟩

/-- C7 counterexample: in the reachable state `cursorTracePool`
(`DynamicPool(1)`, cursor 0, blocks 0-2 full, block 3 free), a successful
`new_object` moves the cursor from 0 to 3 — more than the previous cursor
plus one. -/
theorem c7_counterexample :
    (∃ n, DynPool.Reach cursorTracePool n) ∧
    cursorTracePool.freeBlockIndex = 0 ∧
    (cursorTracePool.newObject true).2.isSome = true ∧
    (cursorTracePool.newObject true).1.freeBlockIndex = 3 := by
  refine ⟨?_, by decide, by decide, by decide⟩
  have h0 := DynPool.Reach.create 1 (by decide)
  have h1 := h0.newStep true
  have h2 := h1.newStep true
  have h3 := h2.newStep true
  have h4 := h3.newStep true
  have h5 := DynPool.Reach.del (3, 0) h4 (by decide)
  have h6 := DynPool.Reach.del (0, 0) h5 (by decide)
  exact ⟨_, h6.newStep true⟩

/-- C7 (amended): a successful `new_object` on a reachable pool sets
`free_block_index_` to the index of the block that served the allocation
(the returned pointer's block), and the new cursor is at least the previous
cursor — but it can exceed the previous cursor by more than one. -/
theorem c7_cursor_serving_block (p : DynPool) (n : Nat) (h : DynPool.Reach p n)
    (ok : Bool) (pr : DynPool) (r : Nat × Nat)
    (heq : p.newObject ok = (pr, some r)) :
    (pr.blocks.getD pr.freeBlockIndex default).ident = r.1 ∧
    p.freeBlockIndex ≤ pr.freeBlockIndex := by
  obtain ⟨hW, -⟩ := DynPool.reach_wf_allocSum h
  obtain ⟨-, -, -, hge, -, hident⟩ := DynPool.newObject_step p ok hW
  rw [heq] at hge hident
  exact ⟨hident r rfl, hge⟩

theorem c7_cursor_serving_block_witness :
    DynPool.Reach (DynPool.create 1) 0 ∧
    (DynPool.create 1).newObject true = (fullPool1, some (0, 0)) ∧
    ((fullPool1.blocks.getD fullPool1.freeBlockIndex default).ident = 0 ∧
     (DynPool.create 1).freeBlockIndex ≤ fullPool1.freeBlockIndex) :=
  ⟨DynPool.Reach.create 1 (by decide), rfl,
   c7_cursor_serving_block (DynPool.create 1) 0
     (DynPool.Reach.create 1 (by decide)) true fullPool1 (0, 0) rfl⟩

/-- C8 counterexample: a foreign pointer (owned by no block of the pool)
passed to `DynamicObjectPool::delete_object` is *not* caught by any
assertion: the block-scan loop falls through and the call returns normally
with the pool unchanged. -/
theorem c8_counterexample :
    DynPool.Reach (DynPool.create 1) 0 ∧
    (DynPool.create 1).deleteObjectChecked (some (99, 0)) =
      some (DynPool.create 1) :=
  ⟨DynPool.Reach.create 1 (by decide), by decide⟩

/-- C8 (amended): a pointer outside the block's payload range passed to
`ObjectPoolBlock::delete_object` (hence to `FixedObjectPool`), and an
in-range but already-freed pointer passed to either pool, are caught by
debug assertions; but a foreign pointer owned by no block passed to
`DynamicObjectPool::delete_object` is silently ignored — the call returns
normally with the pool unchanged. -/
theorem c8_assertion_behaviour (b : Block) (s : Nat) (p : DynPool)
    (q : Nat × Nat) (j : Nat) :
    (b.cap ≤ s → b.deleteObjectChecked (some s) = none) ∧
    (s < b.cap → b.indices.getD s 0 ≠ s →
      b.deleteObjectChecked (some s) = none) ∧
    (findBlock p.entriesPerBlock (some q) p.blocks = none →
      p.deleteObjectChecked (some q) = some p) ∧
    (findBlock p.entriesPerBlock (some q) p.blocks = some j →
      (p.blocks.getD j default).block.indices.getD q.2 0 ≠ q.2 →
      p.deleteObjectChecked (some q) = none) := by
  refine ⟨?_, ?_, ?_, ?_⟩
  · intro hs
    simp only [Block.deleteObjectChecked]
    rw [if_neg (by omega)]
  · intro hs ho
    simp only [Block.deleteObjectChecked]
    rw [if_pos hs, if_neg ho]
  · intro hfind
    simp only [DynPool.deleteObjectChecked]
    rw [hfind]
  · intro hfind ho
    have hbc : (p.blocks.getD j default).block.deleteObjectChecked
        (some (ptrSlot (some q))) = none := by
      simp only [Block.deleteObjectChecked, ptrSlot]
      by_cases hcap : q.2 < (p.blocks.getD j default).block.cap
      · rw [if_pos hcap, if_neg ho]
      · rw [if_neg hcap]
    simp only [DynPool.deleteObjectChecked]
    rw [hfind]
    show (((p.blocks.getD j default).block.deleteObjectChecked
        (some (ptrSlot (some q)))).map (fun bl =>
      { p with
        blocks := p.blocks.set j ({ p.blocks.getD j default with
          numFree := (p.blocks.getD j default).numFree + 1, block := bl }),
        freeBlockIndex :=
          if j < p.freeBlockIndex then j else p.freeBlockIndex })) = none
    rw [hbc]
    rfl

theorem c8_assertion_behaviour_witness :
    (Block.create 1).deleteObjectChecked (some 5) = none ∧
    (Block.create 2).deleteObjectChecked (some 1) = none ∧
    (DynPool.create 1).deleteObjectChecked (some (99, 0)) =
      some (DynPool.create 1) ∧
    (DynPool.create 1).deleteObjectChecked (some (0, 0)) = none :=
  ⟨(c8_assertion_behaviour (Block.create 1) 5 (DynPool.create 1) (99, 0) 0).1
      (by decide),
   (c8_assertion_behaviour (Block.create 2) 1 (DynPool.create 1) (99, 0) 0).2.1
      (by decide) (by decide),
   (c8_assertion_behaviour (Block.create 1) 5 (DynPool.create 1) (99, 0)
      0).2.2.1 (by decide),
   (c8_assertion_behaviour (Block.create 1) 5 (DynPool.create 1) (0, 0)
      0).2.2.2 (by decide) (by decide)⟩

/-- C9: the claim asserts `free_block_index_ < num_blocks_` whenever
`new_object` is entered, matching the assertion at the top of
`DynamicObjectPool::new_object`.  The code violates it: after
`DynamicPool(1)` allocates once and calls `reclaim_memory()`, the retained
block is full and the recomputed cursor equals the block count, so the next
`new_object` call's assertion `free_block_index_ < num_blocks_` fails
(1 < 1 is false). -/
theorem c9_assert_violation :
    DynPool.Reach assertBreakPool 1 ∧
    assertBreakPool.freeBlockIndex = assertBreakPool.blocks.length ∧
    ¬ (assertBreakPool.freeBlockIndex < assertBreakPool.blocks.length) := by
  refine ⟨?_, by decide, by decide⟩
  exact DynPool.Reach.reclaim
    (DynPool.Reach.newOk true (DynPool.Reach.create 1 (by decide)) rfl)

/-- C10: `delete_object(nullptr)` is a no-op on both pool kinds: the null
pointer lies in no block's payload range, so the call returns normally and
every observable part of the pool is unchanged. -/
theorem c10_null_delete_noop (f : FixedPool) (p : DynPool) :
    f.deleteObject none = f ∧ p.deleteObject none = p := by
  constructor
  · rfl
  · simp only [DynPool.deleteObject]
    rw [findBlock_none]

end ObjectPool
